import Mathlib

/-!
The IRC line codec of ircpp (`src/src/irc.cpp`).

A shallow embedding of `Irc::splitAtSep`, `Irc::parseMessage`,
`Irc::write(const IRCMessage&)` and `Irc::splitBatch`, and theorems about them.

Conventions of the embedding:

* a `std::string` is the list of its characters (`Str`);
* a `std::size_t` is a natural number and `std::string::npos` is `2^64 - 1`;
  `find` returns `npos` when nothing is found, exactly as the library does;
* indexing is checked: `s[i]` with `i > s.size()`, `s.substr(pos, _)` with
  `pos > s.size()` and `v[i]` with `i >= v.size()` yield `Fault.outOfRange`
  (`s[s.size()]` is the terminator `'\0'`, as the C++ standard guarantees);
* every `while` loop runs on fuel; a loop that uses up its fuel yields
  `Fault.outOfFuel`;
* the effects of the client (`webSocket.send`, the `onMsg` callback) are
  recorded in an explicit state `Irc`.
-/

namespace Ircpp

/-- A `std::string`, as the sequence of its characters. -/
abbrev Str := List Char

/-- The constant `std::string::npos`: the largest value of a 64-bit `size_t`. -/
def npos : Nat := 2 ^ 64 - 1

/-- What a checked execution can run into. -/
inductive Fault where
  | outOfRange
  | outOfFuel
  deriving DecidableEq, Repr

/-- The access `s[i]` of a `std::string`: the terminator at `i = s.size()`,
out of range beyond. -/
def charAt (s : Str) (i : Nat) : Except Fault Char :=
  if i ≤ s.length then .ok (s.getD i (Char.ofNat 0)) else .error .outOfRange

/-- The call `s.substr(pos, count)`; `count = npos` is the default argument. -/
def substr (s : Str) (pos count : Nat) : Except Fault Str :=
  if pos ≤ s.length then .ok ((s.drop pos).take count) else .error .outOfRange

/-- Scan for `c` in a suffix whose first character has index `i`. -/
def findFrom (c : Char) : Str → Nat → Nat
  | [], _ => npos
  | x :: xs, i => if x = c then i else findFrom c xs (i + 1)

/-- The call `s.find(c, pos)` for a character `c`. -/
def find (s : Str) (c : Char) (pos : Nat) : Nat :=
  findFrom c (s.drop pos) pos

/-- Whether `sep` starts the text `s`. -/
def startsWith : Str → Str → Bool
  | [], _ => true
  | _ :: _, [] => false
  | a :: sep, x :: s => a == x && startsWith sep s

/-- Scan for the string `sep` in a suffix whose first character has index `i`. -/
def findStrFrom (sep : Str) : Str → Nat → Nat
  | [], i => if sep = [] then i else npos
  | x :: xs, i => if startsWith sep (x :: xs) then i else findStrFrom sep xs (i + 1)

/-- The call `s.find(sep, pos)` for a string `sep`. -/
def findStr (s sep : Str) (pos : Nat) : Nat :=
  if pos ≤ s.length then findStrFrom sep (s.drop pos) pos else npos

/-- The access `v[i]` of a `std::vector`. -/
def vecAt {α : Type} (v : List α) (i : Nat) : Except Fault α :=
  match v.get? i with
  | some x => .ok x
  | none => .error .outOfRange

/-- The loop of `Irc::splitAtSep` (irc.cpp, lines 210-214); returns `start` and `out`. -/
def splitAtSepLoop : Nat → Str → Str → Nat → Nat → List Str → Except Fault (Nat × List Str)
  | 0, _, _, _, _, _ => .error .outOfFuel
  | fuel + 1, str, sep, start, end_, out =>
    if end_ ≠ npos then
      match substr str start (end_ - start) with
      | .error e => .error e
      | .ok piece =>
        splitAtSepLoop fuel str sep (end_ + sep.length)
          (findStr str sep (end_ + sep.length)) (out ++ [piece])
    else .ok (start, out)

/-- The function `Irc::splitAtSep` (irc.cpp, lines 204-220), its loop running on `fuel`. -/
def splitAtSepFuel (fuel : Nat) (str sep : Str) : Except Fault (List Str) :=
  match splitAtSepLoop fuel str sep 0 (findStr str sep 0) [] with
  | .error e => .error e
  | .ok (start, out) =>
    if start ≠ npos then
      match substr str start npos with
      | .error e => .error e
      | .ok piece => .ok (out ++ [piece])
    else .ok out

/-- The function `Irc::splitAtSep`, with one unit of fuel per character and one to spare. -/
def splitAtSep (str sep : Str) : Except Fault (List Str) :=
  splitAtSepFuel (str.length + 1) str sep

/-- A tag value, `std::variant<bool, std::string>`. -/
inductive TagValue where
  | flag (b : Bool)
  | text (s : Str)
  deriving DecidableEq, Repr

/-- The anonymous struct `IRCMessage::params`. -/
structure Params where
  middle : Option (List Str)
  trailing : Option Str
  deriving DecidableEq, Repr

/-- The struct `IRCMessage` (irc.hpp, lines 18-27).  The field `pfx` is the
member `prefix`; `tags` lists the entries of the map in iteration order. -/
structure IRCMessage where
  raw : Option Str
  tags : List (Str × TagValue)
  pfx : Option Str
  command : Str
  params : Params
  deriving DecidableEq, Repr

/-- The assignment `tags[k] = v` on the map. -/
def setTag : List (Str × TagValue) → Str → TagValue → List (Str × TagValue)
  | [], k, v => [(k, v)]
  | (k', v') :: rest, k, v =>
    if k' = k then (k, v) :: rest else (k', v') :: setTag rest k v

/-- The lookup of a key in the map. -/
def getTag : List (Str × TagValue) → Str → Option TagValue
  | [], _ => none
  | (k', v') :: rest, k => if k' = k then some v' else getTag rest k

/-- The loops `while (raw[position] == ' ') position++;` of `parseMessage`. -/
def skipSpaces : Nat → Str → Nat → Except Fault Nat
  | 0, _, _ => .error .outOfFuel
  | fuel + 1, raw, position =>
    match charAt raw position with
    | .error e => .error e
    | .ok c => if c = ' ' then skipSpaces fuel raw (position + 1) else .ok position

/-- The loop over `rawTags` of `parseMessage` (irc.cpp, lines 80-87). -/
def parseTags : List Str → List (Str × TagValue) → Except Fault (List (Str × TagValue))
  | [], tags => .ok tags
  | tag :: rest, tags =>
    match splitAtSep tag ['='] with
    | .error e => .error e
    | .ok pair =>
      if pair.length = 1 then
        match vecAt pair 0 with
        | .error e => .error e
        | .ok k => parseTags rest (setTag tags k (.flag true))
      else
        match vecAt pair 0, vecAt pair 1 with
        | .ok k, .ok v => parseTags rest (setTag tags k (.text v))
        | .error e, _ => .error e
        | _, .error e => .error e

/-- The two branches of lines 142-145 and 154-157: append a middle parameter. -/
def pushMiddle (params : Params) (param : Str) : Params :=
  match params.middle with
  | some ms => { params with middle := some (ms ++ [param]) }
  | none => { params with middle := some [param] }

/-- The parameter loop of `parseMessage` (irc.cpp, lines 130-161). -/
def parseParams : Nat → Str → Nat → Params → Except Fault Params
  | 0, _, _, _ => .error .outOfFuel
  | fuel + 1, raw, position, params =>
    if position < npos then
      let nextspace := find raw ' ' position
      match charAt raw position with
      | .error e => .error e
      | .ok c =>
        if c = ':' then
          match substr raw (position + 1) npos with
          | .error e => .error e
          | .ok t => .ok { params with trailing := some t }
        else if nextspace ≠ npos then
          match substr raw position (nextspace - position) with
          | .error e => .error e
          | .ok param =>
            match skipSpaces (raw.length + 1) raw (nextspace + 1) with
            | .error e => .error e
            | .ok position' => parseParams fuel raw position' (pushMiddle params param)
        else
          match substr raw position npos with
          | .error e => .error e
          | .ok param => .ok (pushMiddle params param)
    else .ok params

/-- The command and the parameters of `parseMessage` (irc.cpp, lines 110-163). -/
def parseCommand (raw : Str) (message : IRCMessage) (position : Nat) :
    Except Fault (Option IRCMessage) :=
  let nextspace := find raw ' ' position
  if nextspace = npos then
    if position < npos then
      match substr raw position npos with
      | .error e => .error e
      | .ok command => .ok (some { message with command := command })
    else .ok none
  else
    match substr raw position (nextspace - position) with
    | .error e => .error e
    | .ok command =>
      match skipSpaces (raw.length + 1) raw (nextspace + 1) with
      | .error e => .error e
      | .ok position' =>
        match parseParams (raw.length + 1) raw position' message.params with
        | .error e => .error e
        | .ok params => .ok (some { message with command := command, params := params })

/-- The source of `parseMessage` (irc.cpp, lines 96-108), then the rest of the line. -/
def parseSource (raw : Str) (message : IRCMessage) (position : Nat) :
    Except Fault (Option IRCMessage) :=
  match charAt raw position with
  | .error e => .error e
  | .ok c =>
    if c = ':' then
      let nextspace := find raw ' ' position
      if nextspace = npos then .ok none
      else
        match substr raw (position + 1) (nextspace - (position + 1)) with
        | .error e => .error e
        | .ok p =>
          match skipSpaces (raw.length + 1) raw (nextspace + 1) with
          | .error e => .error e
          | .ok position' => parseCommand raw { message with pfx := some p } position'
    else parseCommand raw message position

/-- The tag block of `parseMessage` (irc.cpp, lines 66-94), then the rest of the line. -/
def parseRaw (raw : Str) : Except Fault (Option IRCMessage) :=
  let message : IRCMessage :=
    { raw := some raw, tags := [], pfx := none, command := [],
      params := { middle := none, trailing := none } }
  match charAt raw 0 with
  | .error e => .error e
  | .ok c =>
    if c = '@' then
      let nextspace := find raw ' ' 0
      if nextspace = npos then .ok none
      else
        match substr raw 1 nextspace with
        | .error e => .error e
        | .ok block =>
          match splitAtSep block [';'] with
          | .error e => .error e
          | .ok rawTags =>
            match parseTags rawTags message.tags with
            | .error e => .error e
            | .ok tags =>
              match skipSpaces (raw.length + 1) raw (nextspace + 1) with
              | .error e => .error e
              | .ok position => parseSource raw { message with tags := tags } position
    else
      match skipSpaces (raw.length + 1) raw 0 with
      | .error e => .error e
      | .ok position => parseSource raw message position

/-- The function `Irc::parseMessage` (irc.cpp, lines 63-164). -/
def parseMessage (msg : Str) : Except Fault (Option IRCMessage) :=
  match substr msg 0 (find msg '\r' 0) with
  | .error e => .error e
  | .ok raw => parseRaw raw

/-- The overwrite `message[i] = c` of a `std::string`. -/
def setChar (message : Str) (i : Nat) (c : Char) : Except Fault Str :=
  if i < message.length then .ok (message.set i c) else .error .outOfRange

/-- The loop over `msg.tags` of `write` (irc.cpp, lines 179-184). -/
def writeTags : List (Str × TagValue) → Str → Str
  | [], message => message
  | (key, .text value) :: rest, message =>
    writeTags rest (message ++ key ++ (['='] ++ value ++ [';']))
  | (key, .flag _) :: rest, message => writeTags rest (message ++ key)

/-- The loop over the middle parameters of `write` (irc.cpp, lines 195-196). -/
def writeMiddle : List Str → Str → Str
  | [], message => message
  | param :: rest, message => writeMiddle rest (message ++ (param ++ [' ']))

/-- The text that `Irc::write(const IRCMessage&)` hands to `webSocket.send`
(irc.cpp, lines 168-202). -/
def messageText (msg : IRCMessage) : Except Fault Str :=
  match msg.raw with
  | some raw => .ok raw
  | none =>
    let tagBlock : Except Fault Str :=
      if msg.tags.length > 0 then
        let message := writeTags msg.tags ['@']
        setChar message (message.length - 1) ' '
      else .ok []
    match tagBlock with
    | .error e => .error e
    | .ok message =>
      let message :=
        match msg.pfx with
        | some p => message ++ ([':'] ++ p ++ [' '])
        | none => message
      let message := message ++ (msg.command ++ [' '])
      let message :=
        match msg.params.middle with
        | some middle => writeMiddle middle message
        | none => message
      let message :=
        match msg.params.trailing with
        | some t => message ++ ([':'] ++ t)
        | none => message
      .ok message

/-- What an `Irc` object does to the outside: the texts handed to
`webSocket.send` and the messages handed to the `onMsg` callback, oldest first. -/
structure Irc where
  sent : List Str
  delivered : List IRCMessage
  deriving DecidableEq, Repr

/-- The call `webSocket.send(text)`. -/
def send (irc : Irc) (text : Str) : Irc :=
  { irc with sent := irc.sent ++ [text] }

/-- The call `onMsg(msg)`. -/
def onMsg (irc : Irc) (msg : IRCMessage) : Irc :=
  { irc with delivered := irc.delivered ++ [msg] }

/-- The function `Irc::write(const IRCMessage&)` (irc.cpp, lines 168-202). -/
def write (irc : Irc) (msg : IRCMessage) : Except Fault Irc :=
  match messageText msg with
  | .error e => .error e
  | .ok text => .ok (send irc text)

/-- The keepalive reply of `splitBatch` (irc.cpp, lines 54-57). -/
def answerPing (irc : Irc) (msg : IRCMessage) : Irc :=
  if msg.command = ['P', 'I', 'N', 'G'] then
    match msg.params.trailing with
    | some token => send irc (['P', 'O', 'N', 'G', ' ', ':'] ++ token)
    | none => irc
  else irc

/-- The loop over `rawMessages` of `splitBatch` (irc.cpp, lines 46-60). -/
def splitBatchLoop : List Str → Irc → Except Fault Irc
  | [], irc => .ok irc
  | rawMessage :: rest, irc =>
    match parseMessage rawMessage with
    | .error e => .error e
    | .ok none => splitBatchLoop rest irc
    | .ok (some msg) => splitBatchLoop rest (onMsg (answerPing irc msg) msg)

/-- The function `Irc::splitBatch` (irc.cpp, lines 43-61). -/
def splitBatch (irc : Irc) (batch : Str) : Except Fault Irc :=
  match splitAtSep batch ['\r', '\n'] with
  | .error e => .error e
  | .ok rawMessages => splitBatchLoop rawMessages irc

/-- The message a line hands to the consumer: its parse, when that succeeds. -/
def parsedLine (line : Str) : Option IRCMessage :=
  match parseMessage line with
  | .ok (some msg) => some msg
  | _ => none

/-- The keepalive reply a line calls for: `"PONG :" + token` when the line
parses to the command `PING` with a trailing parameter `token`. -/
def pongLine (line : Str) : Option Str :=
  match parseMessage line with
  | .ok (some msg) =>
    if msg.command = ['P', 'I', 'N', 'G'] then
      match msg.params.trailing with
      | some token => some (['P', 'O', 'N', 'G', ' ', ':'] ++ token)
      | none => none
    else none
  | _ => none

/-- The parameters of a line as text, `{' ' middle} [' :' trailing]`. -/
def paramsText : List Str → Option Str → Str
  | [], none => []
  | [], some t => ' ' :: ':' :: t
  | m :: ms, t => ' ' :: m ++ paramsText ms t

/-- The source of a line as text, `[':' source ' ']`. -/
def sourceText : Option Str → Str
  | none => []
  | some p => ':' :: p ++ [' ']

/-- A line without tags as text, `[':' source ' '] command {' ' middle} [' :' trailing]`. -/
def lineText (p : Option Str) (c : Str) (ms : List Str) (t : Option Str) : Str :=
  sourceText p ++ c ++ paramsText ms t

/-- The parameters after the loop of `parseMessage` has read a trailing parameter, or none. -/
def withTrailing (params : Params) : Option Str → Params
  | some t => { params with trailing := some t }
  | none => params

/-- The texts of a list, each followed by a space, one after the other. -/
def middleText : List Str → Str
  | [] => []
  | m :: ms => m ++ [' '] ++ middleText ms

/-- The tag-free reference form of a message, in the words of the specification:
`":" + source + " "` if the source is set, the command and a space, each middle
parameter followed by a space, and `":" + trailing` if the trailing parameter
is set. -/
def referenceText (msg : IRCMessage) : Str :=
  (match msg.pfx with
    | some p => [':'] ++ p ++ [' ']
    | none => []) ++
  (msg.command ++ [' ']) ++
  middleText (msg.params.middle.getD []) ++
  (match msg.params.trailing with
    | some t => [':'] ++ t
    | none => [])

/-- The texts of a list joined, with `sep` put back between consecutive ones. -/
def joinWith (sep : Str) : List Str → Str
  | [] => []
  | [x] => x
  | x :: y :: rest => x ++ sep ++ joinWith sep (y :: rest)

/-- The rendering of one tag in the words of the specification: the key for a
boolean tag, `key + "=" + value` for a text tag. -/
def tagText : Str × TagValue → Str
  | (key, .flag _) => key
  | (key, .text value) => key ++ ['='] ++ value

/-- The tag block in the words of the specification: `"@"`, the renderings of
the tags joined by `";"`, and one space. -/
def tagBlockText (tags : List (Str × TagValue)) : Str :=
  ['@'] ++ joinWith [';'] (tags.map tagText) ++ [' ']

/-- The texts of a list, each followed by `";"`, one after the other. -/
def semiText : List Str → Str
  | [] => []
  | r :: rs => r ++ [';'] ++ semiText rs

/-- A line cut off at its first carriage return. -/
def cutAtCR (line : Str) : Str :=
  line.takeWhile (fun x => x != '\r')

/-- Whether a separator overlaps itself: some proper non-empty end of it is
also a beginning of it (as in `"aa"` or `"aba"`). -/
def selfOverlaps (sep : Str) : Bool :=
  (List.range sep.length).any (fun d => decide (0 < d) && startsWith (sep.drop d) sep)

/-! ## The library calls -/

theorem charAt_ok {s : Str} {i : Nat} (h : i ≤ s.length) :
    charAt s i = .ok (s.getD i (Char.ofNat 0)) := by
  simp [charAt, h]

theorem substr_ok {s : Str} {pos : Nat} (count : Nat) (h : pos ≤ s.length) :
    substr s pos count = .ok ((s.drop pos).take count) := by
  simp [substr, h]

theorem findFrom_bound (c : Char) (xs : Str) (i : Nat) :
    findFrom c xs i = npos ∨ (i ≤ findFrom c xs i ∧ findFrom c xs i < i + xs.length) := by
  induction xs generalizing i with
  | nil => simp [findFrom]
  | cons x xs ih =>
    simp only [findFrom]
    split
    · right; simp
    · rcases ih (i + 1) with h | ⟨h1, h2⟩
      · left; exact h
      · right; simp only [List.length_cons]; omega

theorem find_bound {s : Str} {c : Char} {pos : Nat} (h : find s c pos ≠ npos) :
    pos ≤ find s c pos ∧ find s c pos < s.length := by
  unfold find at *
  rcases findFrom_bound c (s.drop pos) pos with h1 | ⟨h1, h2⟩
  · exact absurd h1 h
  · refine ⟨h1, ?_⟩
    simp only [List.length_drop] at h2
    omega

theorem startsWith_length {sep s : Str} (h : startsWith sep s = true) :
    sep.length ≤ s.length := by
  induction sep generalizing s with
  | nil => simp
  | cons a sep ih =>
    cases s with
    | nil => simp [startsWith] at h
    | cons x s =>
      simp only [startsWith, Bool.and_eq_true] at h
      have := ih h.2
      simp only [List.length_cons]; omega

theorem findStrFrom_bound (sep xs : Str) (i : Nat) :
    findStrFrom sep xs i = npos ∨
      (i ≤ findStrFrom sep xs i ∧ findStrFrom sep xs i + sep.length ≤ i + xs.length) := by
  induction xs generalizing i with
  | nil =>
    simp only [findStrFrom]
    split
    · right; simp [*]
    · left; rfl
  | cons x xs ih =>
    simp only [findStrFrom]
    split
    · rename_i h
      right
      exact ⟨le_refl _, by have := startsWith_length h; omega⟩
    · rcases ih (i + 1) with h | ⟨h1, h2⟩
      · left; exact h
      · right; simp only [List.length_cons]; omega

theorem findStr_bound {s sep : Str} {pos : Nat} (h : findStr s sep pos ≠ npos) :
    pos ≤ findStr s sep pos ∧ findStr s sep pos + sep.length ≤ s.length := by
  unfold findStr at *
  split at h
  · rename_i hp
    simp only [hp, if_true]
    rcases findStrFrom_bound sep (s.drop pos) pos with h1 | ⟨h1, h2⟩
    · exact absurd h1 h
    · refine ⟨h1, ?_⟩
      simp only [List.length_drop] at h2
      omega
  · exact absurd rfl h

/-! ## No fault in the loops -/

theorem skipSpaces_ok (fuel : Nat) (raw : Str) (position : Nat)
    (hp : position ≤ raw.length) (hf : raw.length - position < fuel) :
    ∃ p, skipSpaces fuel raw position = .ok p ∧ position ≤ p ∧ p ≤ raw.length := by
  induction fuel generalizing position with
  | zero => omega
  | succ fuel ih =>
    simp only [skipSpaces, charAt_ok hp]
    split
    · rename_i hc
      have hlt : position < raw.length := by
        rcases Nat.lt_or_ge position raw.length with h | h
        · exact h
        · have : raw.getD position (Char.ofNat 0) = Char.ofNat 0 := by
            rw [List.getD_eq_getElem?_getD, List.getElem?_eq_none h]; rfl
          rw [this] at hc
          exact absurd hc (by decide)
      obtain ⟨p, h1, h2, h3⟩ := ih (position + 1) hlt (by omega)
      exact ⟨p, h1, by omega, h3⟩
    · exact ⟨position, rfl, le_refl _, hp⟩

theorem splitAtSepLoop_ok (str sep : Str) (hsep : sep ≠ []) (fuel : Nat) (start : Nat)
    (out : List Str) (hs : start ≤ str.length) (hf : str.length - start < fuel) :
    ∃ s' o', splitAtSepLoop fuel str sep start (findStr str sep start) out = .ok (s', o') ∧
      s' ≤ str.length ∧ ((s' = start ∧ o' = out) ∨ o' ≠ []) := by
  induction fuel generalizing start out with
  | zero => omega
  | succ fuel ih =>
    have hlen : 0 < sep.length := List.length_pos.mpr hsep
    simp only [splitAtSepLoop]
    split
    · rename_i hne
      obtain ⟨h1, h2⟩ := findStr_bound hne
      rw [substr_ok _ hs]
      obtain ⟨s', o', h3, h4, h5⟩ := ih (findStr str sep start + sep.length)
        (out ++ [(str.drop start).take (findStr str sep start - start)]) h2 (by omega)
      refine ⟨s', o', h3, h4, Or.inr ?_⟩
      rcases h5 with ⟨_, h6⟩ | h6
      · rw [h6]; simp
      · exact h6
    · exact ⟨start, out, rfl, hs, Or.inl ⟨rfl, rfl⟩⟩

theorem splitAtSep_ok (str sep : Str) (hsep : sep ≠ []) :
    ∃ out, splitAtSep str sep = .ok out ∧ out ≠ [] := by
  obtain ⟨s', o', h1, h2, h3⟩ :=
    splitAtSepLoop_ok str sep hsep (str.length + 1) 0 [] (Nat.zero_le _) (by omega)
  simp only [splitAtSep, splitAtSepFuel, h1]
  split
  · rw [substr_ok _ h2]
    exact ⟨_, rfl, by simp⟩
  · rename_i hn
    rcases h3 with ⟨h4, _⟩ | h4
    · exfalso; apply hn; rw [h4]; decide
    · exact ⟨o', rfl, h4⟩

theorem vecAt_zero {α : Type} {v : List α} (h : v ≠ []) : ∃ x, vecAt v 0 = .ok x := by
  cases v with
  | nil => exact absurd rfl h
  | cons x v => exact ⟨x, rfl⟩

theorem vecAt_one {α : Type} {v : List α} (h : v ≠ []) (h1 : v.length ≠ 1) :
    ∃ x, vecAt v 1 = .ok x := by
  match v, h, h1 with
  | [_], _, h1 => exact absurd rfl h1
  | _ :: y :: _, _, _ => exact ⟨y, rfl⟩

theorem parseTags_ok (rawTags : List Str) (tags : List (Str × TagValue)) :
    ∃ t, parseTags rawTags tags = .ok t := by
  induction rawTags generalizing tags with
  | nil => exact ⟨tags, rfl⟩
  | cons tag rest ih =>
    obtain ⟨pair, h1, h2⟩ := splitAtSep_ok tag ['='] (by simp)
    obtain ⟨k, hk⟩ := vecAt_zero h2
    simp only [parseTags, h1, hk]
    split
    · exact ih _
    · rename_i hlen
      obtain ⟨v, hv⟩ := vecAt_one h2 hlen
      simp only [hv]
      exact ih _

theorem parseParams_ok (fuel : Nat) (raw : Str) (position : Nat) (params : Params)
    (hp : position ≤ raw.length) (hf : raw.length - position < fuel) :
    ∃ q, parseParams fuel raw position params = .ok q := by
  induction fuel generalizing position params with
  | zero => omega
  | succ fuel ih =>
    simp only [parseParams, charAt_ok hp]
    split
    · split
      · rename_i hc
        have hlt : position < raw.length := by
          rcases Nat.lt_or_ge position raw.length with h | h
          · exact h
          · have : raw.getD position (Char.ofNat 0) = Char.ofNat 0 := by
              rw [List.getD_eq_getElem?_getD, List.getElem?_eq_none h]; rfl
            rw [this] at hc
            exact absurd hc (by decide)
        rw [substr_ok _ (show position + 1 ≤ raw.length from hlt)]
        exact ⟨_, rfl⟩
      · split
        · rename_i hne
          obtain ⟨h1, h2⟩ := find_bound hne
          rw [substr_ok _ hp]
          obtain ⟨p', h3, h4, h5⟩ := skipSpaces_ok (raw.length + 1) raw
            (find raw ' ' position + 1) h2 (by omega)
          simp only [h3]
          exact ih p' _ h5 (by omega)
        · rw [substr_ok _ hp]
          exact ⟨_, rfl⟩
    · exact ⟨params, rfl⟩

theorem parseCommand_ok (raw : Str) (message : IRCMessage) (position : Nat)
    (hp : position ≤ raw.length) :
    ∃ r, parseCommand raw message position = .ok r := by
  simp only [parseCommand]
  split
  · split
    · rw [substr_ok _ hp]
      exact ⟨_, rfl⟩
    · exact ⟨none, rfl⟩
  · rename_i hne
    obtain ⟨h1, h2⟩ := find_bound hne
    rw [substr_ok _ hp]
    obtain ⟨p', h3, h4, h5⟩ := skipSpaces_ok (raw.length + 1) raw
      (find raw ' ' position + 1) h2 (by omega)
    obtain ⟨q, h6⟩ := parseParams_ok (raw.length + 1) raw p' message.params h5 (by omega)
    simp only [h3, h6]
    exact ⟨_, rfl⟩

theorem parseSource_ok (raw : Str) (message : IRCMessage) (position : Nat)
    (hp : position ≤ raw.length) :
    ∃ r, parseSource raw message position = .ok r := by
  simp only [parseSource, charAt_ok hp]
  split
  · split
    · exact ⟨none, rfl⟩
    · rename_i hne
      obtain ⟨h1, h2⟩ := find_bound hne
      rw [substr_ok _ (show position + 1 ≤ raw.length by omega)]
      obtain ⟨p', h3, h4, h5⟩ := skipSpaces_ok (raw.length + 1) raw
        (find raw ' ' position + 1) h2 (by omega)
      simp only [h3]
      exact parseCommand_ok raw _ p' h5
  · exact parseCommand_ok raw message position hp

theorem parseRaw_ok (raw : Str) : ∃ r, parseRaw raw = .ok r := by
  simp only [parseRaw, charAt_ok (Nat.zero_le raw.length)]
  split
  · split
    · exact ⟨none, rfl⟩
    · rename_i hne
      obtain ⟨h1, h2⟩ := find_bound hne
      rw [substr_ok _ (show 1 ≤ raw.length by omega)]
      obtain ⟨rawTags, h3, _⟩ := splitAtSep_ok ((raw.drop 1).take (find raw ' ' 0)) [';'] (by simp)
      obtain ⟨tags, h4⟩ := parseTags_ok rawTags []
      obtain ⟨p', h5, h6, h7⟩ := skipSpaces_ok (raw.length + 1) raw
        (find raw ' ' 0 + 1) h2 (by omega)
      simp only [h3, h4, h5]
      exact parseSource_ok raw _ p' h7
  · obtain ⟨p', h5, h6, h7⟩ := skipSpaces_ok (raw.length + 1) raw 0 (Nat.zero_le _) (by omega)
    simp only [h5]
    exact parseSource_ok raw _ p' h7

theorem parseMessage_ok (msg : Str) : ∃ r, parseMessage msg = .ok r := by
  simp only [parseMessage, substr_ok _ (Nat.zero_le msg.length)]
  exact parseRaw_ok _

/-! ## The frame splitter -/

theorem splitBatchLoop_eq (rawMessages : List Str) (irc : Irc) :
    splitBatchLoop rawMessages irc =
      .ok { sent := irc.sent ++ rawMessages.filterMap pongLine,
            delivered := irc.delivered ++ rawMessages.filterMap parsedLine } := by
  induction rawMessages generalizing irc with
  | nil => simp [splitBatchLoop]
  | cons line rest ih =>
    obtain ⟨r, hr⟩ := parseMessage_ok line
    cases r with
    | none =>
      simp only [splitBatchLoop, hr, ih, List.filterMap_cons, pongLine, parsedLine]
    | some msg =>
      simp only [splitBatchLoop, hr, ih, List.filterMap_cons, pongLine, parsedLine, onMsg,
        answerPing]
      by_cases hc : msg.command = ['P', 'I', 'N', 'G']
      · cases ht : msg.params.trailing with
        | none => simp [hc, ht]
        | some token => simp [hc, ht, send]
      · simp [hc]

/-! ## The library calls on a text given by its parts -/

theorem findFrom_not_mem (c : Char) (xs : Str) (i : Nat) (h : c ∉ xs) :
    findFrom c xs i = npos := by
  induction xs generalizing i with
  | nil => rfl
  | cons x xs ih =>
    simp only [List.mem_cons, not_or] at h
    simp only [findFrom, if_neg (Ne.symm h.1)]
    exact ih _ h.2

theorem findFrom_split (c : Char) (b d : Str) (i : Nat) (h : c ∉ b) :
    findFrom c (b ++ c :: d) i = i + b.length := by
  induction b generalizing i with
  | nil => simp [findFrom]
  | cons x b ih =>
    simp only [List.mem_cons, not_or] at h
    have := ih (i + 1) h.2
    simp only [List.cons_append, findFrom, if_neg (Ne.symm h.1), List.length_cons]
    change findFrom c (b ++ c :: d) (i + 1) = i + (b.length + 1)
    omega

theorem find_split {raw : Str} (pre b d : Str) (c : Char) (h : raw = pre ++ b ++ c :: d)
    (hb : c ∉ b) : find raw c pre.length = pre.length + b.length := by
  subst h
  simp only [find, List.append_assoc, List.drop_left]
  exact findFrom_split c b d _ hb

theorem find_none {raw : Str} (pre b : Str) (c : Char) (h : raw = pre ++ b) (hb : c ∉ b) :
    find raw c pre.length = npos := by
  subst h
  simp only [find, List.drop_left]
  exact findFrom_not_mem c b _ hb

theorem substr_split {raw : Str} (pre b d : Str) (h : raw = pre ++ b ++ d) :
    substr raw pre.length b.length = .ok b := by
  subst h
  rw [substr_ok _ (by simp)]
  simp [List.append_assoc, List.drop_left]

theorem substr_rest {raw : Str} (pre b : Str) (h : raw = pre ++ b) (hl : b.length ≤ npos) :
    substr raw pre.length npos = .ok b := by
  subst h
  rw [substr_ok _ (by simp)]
  simp [List.drop_left, List.take_of_length_le hl]

theorem charAt_split {raw : Str} (pre d : Str) (c : Char) (h : raw = pre ++ c :: d) :
    charAt raw pre.length = .ok c := by
  subst h
  rw [charAt_ok (by simp), List.getD_append_right _ _ _ _ (le_refl _)]
  simp

theorem charAt_end (raw : Str) : charAt raw raw.length = .ok (Char.ofNat 0) := by
  rw [charAt_ok (le_refl _)]
  simp [List.getD_eq_getElem?_getD]

theorem skipSpaces_stay (fuel : Nat) (raw : Str) (position : Nat) (c : Char)
    (h : charAt raw position = .ok c) (hc : c ≠ ' ') :
    skipSpaces (fuel + 1) raw position = .ok position := by
  simp [skipSpaces, h, hc]

theorem skipSpaces_run (sp : Str) (hsp : ∀ x ∈ sp, x = ' ') (fuel : Nat) (raw pre d : Str)
    (c : Char) (h : raw = pre ++ sp ++ c :: d) (hc : c ≠ ' ') (hf : sp.length < fuel) :
    skipSpaces fuel raw pre.length = .ok (pre.length + sp.length) := by
  induction sp generalizing fuel pre with
  | nil =>
    cases fuel with
    | zero => simp at hf
    | succ fuel =>
      exact skipSpaces_stay fuel raw _ c (charAt_split pre d c (by simpa using h)) hc
  | cons x sp ih =>
    cases fuel with
    | zero => simp at hf
    | succ fuel =>
      have hx : x = ' ' := hsp x (by simp)
      subst hx
      have h1 : charAt raw pre.length = .ok ' ' :=
        charAt_split pre (sp ++ c :: d) ' ' (by simpa using h)
      simp only [skipSpaces, h1, if_true]
      have := ih (fun y hy => hsp y (by simp [hy])) fuel (pre ++ [' ']) (by simpa using h)
        (by simpa using hf)
      simp only [List.length_append, List.length_singleton] at this
      rw [this]
      simp only [List.length_cons]
      congr 1
      omega

theorem skipSpaces_run_end (sp : Str) (hsp : ∀ x ∈ sp, x = ' ') (fuel : Nat) (raw pre : Str)
    (h : raw = pre ++ sp) (hf : sp.length < fuel) :
    skipSpaces fuel raw pre.length = .ok (pre.length + sp.length) := by
  induction sp generalizing fuel pre with
  | nil =>
    cases fuel with
    | zero => simp at hf
    | succ fuel =>
      have h1 : charAt raw pre.length = .ok (Char.ofNat 0) := by
        have := charAt_end raw
        rw [h] at this ⊢
        simpa using this
      exact skipSpaces_stay fuel raw _ _ h1 (by decide)
  | cons x sp ih =>
    cases fuel with
    | zero => simp at hf
    | succ fuel =>
      have hx : x = ' ' := hsp x (by simp)
      subst hx
      have h1 : charAt raw pre.length = .ok ' ' := charAt_split pre sp ' ' h
      simp only [skipSpaces, h1, if_true]
      have := ih (fun y hy => hsp y (by simp [hy])) fuel (pre ++ [' ']) (by simpa using h)
        (by simpa using hf)
      simp only [List.length_append, List.length_singleton] at this
      rw [this]
      simp only [List.length_cons]
      congr 1
      omega

/-! ## Truncated lines -/

theorem takeWhile_append_all (p : Char → Bool) (a b : Str) (h : ∀ x ∈ a, p x = true) :
    (a ++ b).takeWhile p = a ++ b.takeWhile p := by
  induction a with
  | nil => rfl
  | cons x a ih =>
    simp only [List.cons_append, List.takeWhile_cons, h x (by simp), if_true]
    rw [ih (fun y hy => h y (by simp [hy]))]

theorem takeWhile_append_stop (p : Char → Bool) (a b : Str) (h : ∃ x ∈ a, p x = false) :
    (a ++ b).takeWhile p = a.takeWhile p := by
  induction a with
  | nil => simp at h
  | cons x a ih =>
    simp only [List.cons_append, List.takeWhile_cons]
    cases hx : p x with
    | true =>
      simp only [if_true]
      obtain ⟨y, hy, hpy⟩ := h
      simp only [List.mem_cons] at hy
      rcases hy with rfl | hy
      · rw [hx] at hpy; exact absurd hpy (by simp)
      · rw [ih ⟨y, hy, hpy⟩]
    | false => simp

theorem take_findFrom (c : Char) (xs : Str) (i : Nat) (h : i + xs.length < npos) :
    xs.take (findFrom c xs i - i) = xs.takeWhile (fun x => x != c) := by
  induction xs generalizing i with
  | nil => simp
  | cons x xs ih =>
    simp only [List.length_cons] at h
    simp only [findFrom, List.takeWhile_cons]
    by_cases hx : x = c
    · simp [hx]
    · have h1 : (x != c) = true := by simp [hx]
      simp only [if_neg hx, h1, if_true]
      have h2 : findFrom c xs (i + 1) - i = (findFrom c xs (i + 1) - (i + 1)) + 1 := by
        rcases findFrom_bound c xs (i + 1) with h3 | ⟨h3, _⟩
        · rw [h3]; omega
        · omega
      rw [h2, List.take_succ_cons, ih (i + 1) (by omega)]

theorem parseMessage_eq_parseRaw (msg : Str) (h : msg.length < npos) :
    parseMessage msg = parseRaw (msg.takeWhile (fun x => x != '\r')) := by
  simp only [parseMessage, substr_ok _ (Nat.zero_le msg.length), find, List.drop_zero]
  have := take_findFrom '\r' msg 0 (by omega)
  simp only [Nat.sub_zero] at this
  rw [this]

theorem parseSource_truncated (raw pre rest : Str) (message : IRCMessage)
    (h : raw = pre ++ ':' :: rest) (hrest : ' ' ∉ rest) :
    parseSource raw message pre.length = .ok none := by
  have h1 : charAt raw pre.length = .ok ':' := charAt_split pre rest ':' h
  have h2 : find raw ' ' pre.length = npos :=
    find_none pre (':' :: rest) ' ' h (by simp [hrest])
  simp [parseSource, h1, h2]

theorem parseRaw_tag_truncated (t : Str) (ht : ' ' ∉ t) : parseRaw ('@' :: t) = .ok none := by
  have h1 : charAt ('@' :: t) 0 = .ok '@' := charAt_split [] t '@' rfl
  have h2 : find ('@' :: t) ' ' 0 = npos := find_none [] ('@' :: t) ' ' rfl (by simp [ht])
  simp [parseRaw, h1, h2]

theorem parseRaw_source_truncated (sp rest : Str) (hsp : ∀ x ∈ sp, x = ' ')
    (hrest : ' ' ∉ rest) : parseRaw (sp ++ ':' :: rest) = .ok none := by
  have h1 : ∃ c, charAt (sp ++ ':' :: rest) 0 = .ok c ∧ c ≠ '@' := by
    cases sp with
    | nil => exact ⟨':', rfl, by decide⟩
    | cons x sp =>
      refine ⟨x, rfl, ?_⟩
      rw [hsp x (by simp)]
      decide
  obtain ⟨c, hc, hne⟩ := h1
  have h2 := skipSpaces_run sp hsp ((sp ++ ':' :: rest).length + 1) (sp ++ ':' :: rest) []
    rest ':' rfl (by decide) (by simp; omega)
  simp only [List.length_nil, Nat.zero_add] at h2
  simp only [parseRaw, hc, if_neg hne, h2]
  exact parseSource_truncated _ sp rest _ rfl hrest

theorem parseRaw_tagged_source_truncated (t sp rest : Str) (ht : ' ' ∉ t)
    (hsp : ∀ x ∈ sp, x = ' ') (hrest : ' ' ∉ rest)
    (hlen : ('@' :: t ++ ' ' :: sp ++ ':' :: rest).length < npos) :
    parseRaw ('@' :: t ++ ' ' :: sp ++ ':' :: rest) = .ok none := by
  generalize hraw : '@' :: t ++ ' ' :: sp ++ ':' :: rest = raw at hlen
  have hraw' := hraw.symm
  have h1 : charAt raw 0 = .ok '@' :=
    charAt_split [] (t ++ ' ' :: sp ++ ':' :: rest) '@' (by simpa using hraw')
  have h2 : find raw ' ' 0 = 0 + ('@' :: t).length :=
    find_split [] ('@' :: t) (sp ++ ':' :: rest) ' ' (by simpa using hraw') (by simp [ht])
  have h3 : find raw ' ' 0 ≠ npos := by
    rw [h2, ← hraw] at *
    simp only [List.length_cons, List.length_append] at hlen ⊢
    omega
  have h4 : 1 ≤ raw.length := by rw [← hraw]; simp
  obtain ⟨rawTags, h5, _⟩ :=
    splitAtSep_ok ((raw.drop 1).take (find raw ' ' 0)) [';'] (by simp)
  obtain ⟨tags, h6⟩ := parseTags_ok rawTags []
  have h7 := skipSpaces_run sp hsp (raw.length + 1) raw ('@' :: t ++ [' ']) rest ':'
    (by simpa using hraw') (by decide) (by rw [← hraw]; simp; omega)
  have h8 : find raw ' ' 0 + 1 = ('@' :: t ++ [' ']).length := by
    rw [h2]; simp
  simp only [parseRaw, h1, if_true, if_neg h3, substr_ok _ h4, h5, h6]
  rw [h8, h7]
  have h9 := parseSource_truncated raw ('@' :: t ++ ' ' :: sp) rest
    { raw := some raw, tags := tags, pfx := none, command := [],
      params := { middle := none, trailing := none } } (by simpa using hraw') hrest
  have h10 : ('@' :: t ++ [' ']).length + sp.length = ('@' :: t ++ ' ' :: sp).length := by
    simp only [List.length_append, List.length_cons, List.length_nil]; omega
  rw [h10]
  exact h9

theorem not_mem_takeWhile (p : Char → Bool) (c : Char) (xs : Str) (h : c ∉ xs) :
    c ∉ xs.takeWhile p :=
  fun hc => h ((List.takeWhile_sublist p).subset hc)

theorem length_takeWhile_le (p : Char → Bool) (xs : Str) :
    (xs.takeWhile p).length ≤ xs.length :=
  (List.takeWhile_sublist p).length_le

/-- C7: `parseMessage` returns failure on every truncated line: (a) a line that
begins with `'@'` and contains no space, and (b) a line in which the first
character after the optional tag block (`'@'`, a space-free text `t`, a space)
and any following spaces `sp` is `':'` with no space after it. -/
theorem parseMessage_truncated (msg : Str) (hlen : msg.length < npos)
    (h : (msg.head? = some '@' ∧ ' ' ∉ msg) ∨
      (∃ sp rest : Str, (∀ x ∈ sp, x = ' ') ∧ ' ' ∉ rest ∧ msg = sp ++ ':' :: rest) ∨
      (∃ t sp rest : Str, ' ' ∉ t ∧ (∀ x ∈ sp, x = ' ') ∧ ' ' ∉ rest ∧
        msg = '@' :: t ++ ' ' :: sp ++ ':' :: rest)) :
    parseMessage msg = .ok none := by
  rw [parseMessage_eq_parseRaw msg hlen]
  have hcut := length_takeWhile_le (fun x => x != '\r') msg
  generalize hp : (fun x : Char => x != '\r') = p at *
  have hspace : p ' ' = true := by rw [← hp]; decide
  have hcolon : p ':' = true := by rw [← hp]; decide
  have hat : p '@' = true := by rw [← hp]; decide
  rcases h with ⟨h1, h2⟩ | ⟨sp, rest, hsp, hrest, rfl⟩ | ⟨t, sp, rest, ht, hsp, hrest, rfl⟩
  · cases msg with
    | nil => simp at h1
    | cons x xs =>
      simp only [List.head?_cons, Option.some.injEq] at h1
      subst h1
      simp only [List.takeWhile_cons, hat, if_true]
      simp only [List.mem_cons, not_or] at h2
      exact parseRaw_tag_truncated _ (not_mem_takeWhile p ' ' xs h2.2)
  · rw [takeWhile_append_all p sp _ (fun x hx => by rw [hsp x hx]; exact hspace)]
    simp only [List.takeWhile_cons, hcolon, if_true]
    exact parseRaw_source_truncated sp _ hsp (not_mem_takeWhile p ' ' rest hrest)
  · by_cases hcr : ∃ x ∈ t, p x = false
    · have h3 : ('@' :: t ++ ' ' :: sp ++ ':' :: rest).takeWhile p = '@' :: t.takeWhile p := by
        simp only [List.cons_append, List.append_assoc, List.takeWhile_cons, hat, if_true]
        rw [takeWhile_append_stop p t _ hcr]
      rw [h3]
      exact parseRaw_tag_truncated _ (not_mem_takeWhile p ' ' t ht)
    · have hall : ∀ x ∈ t, p x = true := by
        intro x hx
        cases hpx : p x with
        | true => rfl
        | false => exact absurd ⟨x, hx, hpx⟩ hcr
      have h3 : ('@' :: t ++ ' ' :: sp ++ ':' :: rest).takeWhile p =
          '@' :: t ++ ' ' :: sp ++ ':' :: rest.takeWhile p := by
        simp only [List.cons_append, List.append_assoc, List.takeWhile_cons, hat, if_true]
        rw [takeWhile_append_all p t _ hall]
        simp only [List.takeWhile_cons, hspace, if_true, List.cons_append]
        rw [takeWhile_append_all p sp _ (fun x hx => by rw [hsp x hx]; exact hspace)]
        simp only [List.takeWhile_cons, hcolon, if_true]
      rw [h3] at hcut ⊢
      exact parseRaw_tagged_source_truncated t sp _ ht hsp
        (not_mem_takeWhile p ' ' rest hrest) (by omega)

/-- C7, at the lines `"@tag"`, `"  :server"` and `"@a=1;b  :server"`. -/
theorem parseMessage_truncated_witness :
    parseMessage "@tag".toList = .ok none ∧
    parseMessage "  :server".toList = .ok none ∧
    parseMessage "@a=1;b  :server".toList = .ok none :=
  ⟨parseMessage_truncated _ (by decide) (Or.inl ⟨rfl, by decide⟩),
   parseMessage_truncated _ (by decide)
     (Or.inr (Or.inl ⟨"  ".toList, "server".toList, by decide, by decide, rfl⟩)),
   parseMessage_truncated _ (by decide)
     (Or.inr (Or.inr ⟨"a=1;b".toList, " ".toList, "server".toList, by decide, by decide,
       by decide, rfl⟩))⟩

/-! ## Well-formed lines without tags -/

theorem paramsText_eq_nil {ms : List Str} {t : Option Str} (h : paramsText ms t = []) :
    ms = [] ∧ t = none := by
  cases ms with
  | nil =>
    cases t with
    | none => exact ⟨rfl, rfl⟩
    | some t => simp [paramsText] at h
  | cons m ms => simp [paramsText] at h

theorem paramsText_head {ms : List Str} {t : Option Str}
    (hms : ∀ m ∈ ms, m ≠ [] ∧ ' ' ∉ m ∧ m.head? ≠ some ':') (h : paramsText ms t ≠ []) :
    ∃ c r, paramsText ms t = ' ' :: c :: r ∧ c ≠ ' ' := by
  cases ms with
  | nil =>
    cases t with
    | none => exact absurd rfl h
    | some t => exact ⟨':', t, rfl, by decide⟩
  | cons m ms =>
    obtain ⟨h1, h2, _⟩ := hms m (by simp)
    cases m with
    | nil => exact absurd rfl h1
    | cons x m =>
      refine ⟨x, m ++ paramsText ms t, rfl, ?_⟩
      intro hx
      apply h2
      simp [hx]

theorem parseParams_paramsText (ms : List Str) (t : Option Str)
    (hms : ∀ m ∈ ms, m ≠ [] ∧ ' ' ∉ m ∧ m.head? ≠ some ':')
    (hne : paramsText ms t ≠ []) (raw pre : Str) (params : Params) (fuel : Nat)
    (hraw : raw = pre ++ paramsText ms t) (hlen : raw.length < npos)
    (hf : (paramsText ms t).length ≤ fuel) :
    parseParams fuel raw (pre.length + 1) params =
      .ok (withTrailing (ms.foldl pushMiddle params) t) := by
  induction ms generalizing pre params fuel with
  | nil =>
    cases t with
    | none => exact absurd rfl hne
    | some t =>
      cases fuel with
      | zero => simp [paramsText] at hf
      | succ fuel =>
        have hpos : pre.length + 1 < npos := by
          rw [hraw] at hlen; simp [paramsText] at hlen; omega
        have h1 : charAt raw (pre ++ [' ']).length = .ok ':' :=
          charAt_split (pre ++ [' ']) t ':' (by simp [hraw, paramsText])
        have h2 : substr raw (pre ++ [' ', ':']).length npos = .ok t :=
          substr_rest (pre ++ [' ', ':']) t (by simp [hraw, paramsText])
            (by rw [hraw] at hlen; simp [paramsText] at hlen; omega)
        simp only [List.length_append, List.length_cons, List.length_nil] at h1 h2
        simp only [parseParams, hpos, if_true, h1, h2]
        rfl
  | cons m ms ih =>
    obtain ⟨hm1, hm2, hm3⟩ := hms m (by simp)
    have hms' : ∀ m ∈ ms, m ≠ [] ∧ ' ' ∉ m ∧ m.head? ≠ some ':' :=
      fun y hy => hms y (by simp [hy])
    cases fuel with
    | zero => simp [paramsText] at hf
    | succ fuel =>
      have hpos : pre.length + 1 < npos := by
        rw [hraw] at hlen; simp [paramsText] at hlen; omega
      obtain ⟨x, m', rfl⟩ : ∃ x m', m = x :: m' := by
        cases m with
        | nil => exact absurd rfl hm1
        | cons x m' => exact ⟨x, m', rfl⟩
      have hx : x ≠ ':' := by
        intro hx; apply hm3; simp [hx]
      have h1 : charAt raw (pre ++ [' ']).length = .ok x :=
        charAt_split (pre ++ [' ']) (m' ++ paramsText ms t) x (by simp [hraw, paramsText])
      simp only [List.length_append, List.length_cons, List.length_nil] at h1
      simp only [parseParams, hpos, if_true, h1, if_neg hx]
      by_cases hrest : paramsText ms t = []
      · obtain ⟨rfl, rfl⟩ := paramsText_eq_nil hrest
        have h2 : find raw ' ' (pre ++ [' ']).length = npos :=
          find_none (pre ++ [' ']) (x :: m') ' ' (by simp [hraw, paramsText]) hm2
        have h3 : substr raw (pre ++ [' ']).length npos = .ok (x :: m') :=
          substr_rest (pre ++ [' ']) (x :: m') (by simp [hraw, paramsText])
            (by rw [hraw] at hlen; simp [paramsText] at hlen ⊢; omega)
        simp only [List.length_append, List.length_cons, List.length_nil] at h2 h3
        simp only [h2, ne_eq, not_true_eq_false, if_false, h3]
        rfl
      · obtain ⟨c, r, hcr, hc⟩ := paramsText_head hms' hrest
        have h2 : find raw ' ' (pre ++ [' ']).length = (pre ++ [' ']).length + (x :: m').length :=
          find_split (pre ++ [' ']) (x :: m') (c :: r) ' '
            (by simp [hraw, paramsText, hcr]) hm2
        have h3 : substr raw (pre ++ [' ']).length (x :: m').length = .ok (x :: m') :=
          substr_split (pre ++ [' ']) (x :: m') (' ' :: c :: r)
            (by simp [hraw, paramsText, hcr])
        have h4 : charAt raw (pre ++ ' ' :: (x :: m') ++ [' ']).length = .ok c :=
          charAt_split (pre ++ ' ' :: (x :: m') ++ [' ']) r c
            (by simp [hraw, paramsText, hcr])
        have h5 := skipSpaces_stay raw.length raw _ c h4 hc
        have h6 := ih hms' hrest (pre ++ ' ' :: (x :: m')) (pushMiddle params (x :: m')) fuel
          (by simp [hraw, paramsText]) (by simp [paramsText] at hf; omega)
        simp only [List.length_append, List.length_cons, List.length_nil] at h2 h3 h4 h5 h6
        have hns : pre.length + 1 + (m'.length + 1) ≠ npos := by
          rw [hraw] at hlen; simp [paramsText, hcr] at hlen; omega
        have e1 : pre.length + 1 + (m'.length + 1) - (pre.length + 1) = m'.length + 1 := by
          omega
        have e2 : pre.length + (m'.length + 1 + 1) + 1 = pre.length + 1 + (m'.length + 1) + 1 := by
          omega
        have e3 : pre.length + (m'.length + 1 + 1) = pre.length + 1 + (m'.length + 1) := by
          omega
        rw [e2] at h5
        rw [e3] at h6
        simp only [h2, ne_eq, hns, not_false_eq_true, if_true, e1, h3, h5, h6]
        rfl

theorem foldl_pushMiddle_some (ms l : List Str) (tr : Option Str) :
    ms.foldl pushMiddle { middle := some l, trailing := tr } =
      { middle := some (l ++ ms), trailing := tr } := by
  induction ms generalizing l with
  | nil => simp
  | cons m ms ih => simp [List.foldl_cons, pushMiddle, ih]

theorem foldl_pushMiddle_none (ms : List Str) (tr : Option Str) :
    ms.foldl pushMiddle { middle := none, trailing := tr } =
      { middle := if ms = [] then none else some ms, trailing := tr } := by
  cases ms with
  | nil => rfl
  | cons m ms => simp [List.foldl_cons, pushMiddle, foldl_pushMiddle_some]

theorem parseCommand_lineText (c : Str) (ms : List Str) (t : Option Str)
    (hc : c ≠ [] ∧ ' ' ∉ c) (hms : ∀ m ∈ ms, m ≠ [] ∧ ' ' ∉ m ∧ m.head? ≠ some ':')
    (raw pre : Str) (message : IRCMessage) (hraw : raw = pre ++ c ++ paramsText ms t)
    (hlen : raw.length < npos) :
    parseCommand raw message pre.length =
      .ok (some { message with
        command := c, params := withTrailing (ms.foldl pushMiddle message.params) t }) := by
  by_cases hrest : paramsText ms t = []
  · obtain ⟨rfl, rfl⟩ := paramsText_eq_nil hrest
    have h1 : find raw ' ' pre.length = npos :=
      find_none pre c ' ' (by simp [hraw, paramsText]) hc.2
    have h2 : substr raw pre.length npos = .ok c :=
      substr_rest pre c (by simp [hraw, paramsText])
        (by rw [hraw] at hlen; simp at hlen; omega)
    have hpos : pre.length < npos := by rw [hraw] at hlen; simp at hlen; omega
    simp only [parseCommand, h1, if_true, hpos, h2]
    rfl
  · obtain ⟨x, r, hxr, hx⟩ := paramsText_head hms hrest
    have h1 : find raw ' ' pre.length = pre.length + c.length :=
      find_split pre c (x :: r) ' ' (by simp [hraw, hxr]) hc.2
    have h2 : substr raw pre.length c.length = .ok c :=
      substr_split pre c (' ' :: x :: r) (by simp [hraw, hxr])
    have h3 : charAt raw (pre ++ c ++ [' ']).length = .ok x :=
      charAt_split (pre ++ c ++ [' ']) r x (by simp [hraw, hxr])
    have h4 := skipSpaces_stay raw.length raw _ x h3 hx
    have h5 := parseParams_paramsText ms t hms hrest raw (pre ++ c) message.params
      (raw.length + 1) (by simp [hraw]) hlen (by rw [hraw]; simp; omega)
    simp only [List.length_append, List.length_cons, List.length_nil] at h3 h4 h5
    have hns : pre.length + c.length ≠ npos := by
      rw [hraw] at hlen; simp [hxr] at hlen; omega
    have e1 : pre.length + c.length - pre.length = c.length := by omega
    simp only [parseCommand, h1, if_neg hns, e1, h2, h4, h5]

theorem parseSource_lineText (p : Option Str) (c : Str) (ms : List Str) (t : Option Str)
    (hp : ∀ s, p = some s → ' ' ∉ s) (hc : c ≠ [] ∧ ' ' ∉ c)
    (hc0 : p = none → c.head? ≠ some ':')
    (hms : ∀ m ∈ ms, m ≠ [] ∧ ' ' ∉ m ∧ m.head? ≠ some ':')
    (message : IRCMessage) (hm : message.pfx = none)
    (hlen : (lineText p c ms t).length < npos) :
    parseSource (lineText p c ms t) message 0 =
      .ok (some { message with
        pfx := p, command := c,
        params := withTrailing (ms.foldl pushMiddle message.params) t }) := by
  obtain ⟨x, c', rfl⟩ : ∃ x c', c = x :: c' := by
    cases c with
    | nil => exact absurd rfl hc.1
    | cons x c' => exact ⟨x, c', rfl⟩
  have hx : x ≠ ' ' := by
    intro hx; apply hc.2; simp [hx]
  cases p with
  | none =>
    have h1 : charAt (lineText none (x :: c') ms t) 0 = .ok x := rfl
    have hx2 : x ≠ ':' := by
      intro hx2; apply hc0 rfl; simp [hx2]
    have h2 := parseCommand_lineText (x :: c') ms t hc hms (lineText none (x :: c') ms t) []
      message (by simp [lineText, sourceText]) hlen
    simp only [parseSource, h1, if_neg hx2]
    rw [show parseCommand (lineText none (x :: c') ms t) message 0 = _ from by simpa using h2, hm]
  | some s =>
    generalize hraw : lineText (some s) (x :: c') ms t = raw at hlen ⊢
    have hraw' : raw = ':' :: s ++ ' ' :: x :: c' ++ paramsText ms t := by
      rw [← hraw]; simp [lineText, sourceText]
    have h1 : charAt raw 0 = .ok ':' := by rw [hraw']; rfl
    have h2 : find raw ' ' 0 = 0 + (':' :: s).length :=
      find_split [] (':' :: s) (x :: c' ++ paramsText ms t) ' ' (by simp [hraw'])
        (by simp [hp s rfl])
    have h3 : substr raw 1 s.length = .ok s :=
      substr_split [':'] s (' ' :: x :: c' ++ paramsText ms t) (by simp [hraw'])
    have h4 : charAt raw (':' :: s ++ [' ']).length = .ok x :=
      charAt_split (':' :: s ++ [' ']) (c' ++ paramsText ms t) x (by simp [hraw'])
    have h5 := skipSpaces_stay raw.length raw _ x h4 hx
    have h6 := parseCommand_lineText (x :: c') ms t hc hms raw (':' :: s ++ [' '])
      { message with pfx := some s } (by simp [hraw']) hlen
    simp only [List.length_append, List.length_cons, List.length_nil, Nat.zero_add]
      at h2 h4 h5 h6
    have hns : s.length + 1 ≠ npos := by
      rw [hraw'] at hlen; simp at hlen; omega
    have e1 : s.length + 1 - (0 + 1) = s.length := by omega
    simp only [parseSource, h1, if_true, h2, if_neg hns, e1, h3, h5, h6]

theorem not_mem_paramsText (ms : List Str) (t : Option Str) (hms : ∀ m ∈ ms, '\r' ∉ m)
    (ht : ∀ s, t = some s → '\r' ∉ s) : '\r' ∉ paramsText ms t := by
  induction ms with
  | nil =>
    cases t with
    | none => simp [paramsText]
    | some s =>
      have := ht s rfl
      simp only [paramsText, List.mem_cons, not_or]
      exact ⟨by decide, by decide, this⟩
  | cons m ms ih =>
    have h1 := hms m (by simp)
    have h2 := ih (fun y hy => hms y (by simp [hy]))
    simp only [paramsText, List.cons_append, List.mem_cons, List.mem_append, not_or]
    exact ⟨by decide, h1, h2⟩

theorem parseRaw_lineText (p : Option Str) (c : Str) (ms : List Str) (t : Option Str)
    (hp : ∀ s, p = some s → ' ' ∉ s) (hc : c ≠ [] ∧ ' ' ∉ c)
    (hc0 : p = none → c.head? ≠ some '@' ∧ c.head? ≠ some ':')
    (hms : ∀ m ∈ ms, m ≠ [] ∧ ' ' ∉ m ∧ m.head? ≠ some ':')
    (hlen : (lineText p c ms t).length < npos) :
    parseRaw (lineText p c ms t) =
      .ok (some { raw := some (lineText p c ms t), tags := [], pfx := p, command := c,
                  params := { middle := if ms = [] then none else some ms, trailing := t } }) := by
  have h1 : ∃ x, charAt (lineText p c ms t) 0 = .ok x ∧ x ≠ '@' ∧ x ≠ ' ' := by
    cases p with
    | some s => exact ⟨':', rfl, by decide, by decide⟩
    | none =>
      cases c with
      | nil => exact absurd rfl hc.1
      | cons x c' =>
        refine ⟨x, rfl, ?_, ?_⟩
        · intro hx; apply (hc0 rfl).1; simp [hx]
        · intro hx; apply hc.2; simp [hx]
  obtain ⟨x, hx, hx1, hx2⟩ := h1
  have h2 := skipSpaces_stay (lineText p c ms t).length (lineText p c ms t) 0 x hx hx2
  have h3 := parseSource_lineText p c ms t hp hc (fun h => (hc0 h).2) hms
    { raw := some (lineText p c ms t), tags := [], pfx := none, command := [],
      params := { middle := none, trailing := none } } rfl hlen
  simp only [parseRaw, hx, if_neg hx1, h2, h3, foldl_pushMiddle_none]
  cases t <;> rfl

theorem parseMessage_lineText_eq (p : Option Str) (c : Str) (ms : List Str) (t : Option Str)
    (hp : ∀ s, p = some s → ' ' ∉ s ∧ '\r' ∉ s)
    (hc : c ≠ [] ∧ ' ' ∉ c ∧ '\r' ∉ c)
    (hc0 : p = none → c.head? ≠ some '@' ∧ c.head? ≠ some ':')
    (hms : ∀ m ∈ ms, m ≠ [] ∧ ' ' ∉ m ∧ '\r' ∉ m ∧ m.head? ≠ some ':')
    (ht : ∀ s, t = some s → '\r' ∉ s)
    (hlen : (lineText p c ms t).length < npos) :
    parseMessage (lineText p c ms t) =
      .ok (some { raw := some (lineText p c ms t), tags := [], pfx := p, command := c,
                  params := { middle := if ms = [] then none else some ms, trailing := t } }) := by
  have hcr : '\r' ∉ lineText p c ms t := by
    have h1 : '\r' ∉ sourceText p := by
      cases p with
      | none => simp [sourceText]
      | some s =>
        have := (hp s rfl).2
        simp only [sourceText, List.cons_append, List.mem_cons, List.mem_append, not_or]
        exact ⟨by decide, this, by decide, by simp⟩
    have h2 := not_mem_paramsText ms t (fun m hm => (hms m hm).2.2.1) ht
    simp only [lineText, List.mem_append, not_or]
    exact ⟨⟨h1, hc.2.2⟩, h2⟩
  have hcut : (lineText p c ms t).takeWhile (fun x => x != '\r') = lineText p c ms t := by
    rw [List.takeWhile_eq_self_iff]
    intro x hx
    have : x ≠ '\r' := fun h => hcr (h ▸ hx)
    simp [this]
  rw [parseMessage_eq_parseRaw _ hlen, hcut]
  exact parseRaw_lineText p c ms t (fun s hs => (hp s hs).1) ⟨hc.1, hc.2.1⟩ hc0
    (fun m hm => ⟨(hms m hm).1, (hms m hm).2.1, (hms m hm).2.2.2⟩) hlen

theorem writeMiddle_trailing (ms : List Str) (acc t : Str) :
    writeMiddle ms (acc ++ [' ']) ++ ([':'] ++ t) = acc ++ paramsText ms (some t) := by
  induction ms generalizing acc with
  | nil => simp [writeMiddle, paramsText]
  | cons m ms ih =>
    have h := ih (acc ++ ' ' :: m)
    simp only [writeMiddle, paramsText]
    rw [show acc ++ [' '] ++ (m ++ [' ']) = acc ++ ' ' :: m ++ [' '] by simp, h]
    simp

theorem messageText_trailing (p : Option Str) (c : Str) (middle : Option (List Str))
    (t : Str) :
    messageText { raw := none, tags := [], pfx := p, command := c,
                  params := { middle := middle, trailing := some t } } =
      .ok (lineText p c (middle.getD []) (some t)) := by
  have h := writeMiddle_trailing (middle.getD []) (sourceText p ++ c) t
  cases p <;> cases middle <;>
    simp_all [messageText, lineText, sourceText, writeMiddle, paramsText]

/-! ## The claims about single lines -/

/-- C2: parsing a well-formed line without tags returns its components.  For an
optional source `p` (no space, no CR), a command `c` (non-empty, no space, no
CR, not starting with `'@'` or `':'` when there is no source), middle
parameters `ms` (each non-empty, free of space and CR, not starting with
`':'`) and an optional trailing parameter `t` (no CR), `parseMessage` of
`[':' p ' '] c {' ' m} [' :' t]` succeeds with source `p`, command `c`, no
tags, the middle parameters `ms` in order (absent when there is none) and
trailing parameter `t`. -/
theorem parseMessage_lineText (p : Option Str) (c : Str) (ms : List Str) (t : Option Str)
    (hp : ∀ s, p = some s → ' ' ∉ s ∧ '\r' ∉ s)
    (hc : c ≠ [] ∧ ' ' ∉ c ∧ '\r' ∉ c)
    (hc0 : p = none → c.head? ≠ some '@' ∧ c.head? ≠ some ':')
    (hms : ∀ m ∈ ms, m ≠ [] ∧ ' ' ∉ m ∧ '\r' ∉ m ∧ m.head? ≠ some ':')
    (ht : ∀ s, t = some s → '\r' ∉ s)
    (hlen : (lineText p c ms t).length < npos) :
    parseMessage (lineText p c ms t) =
      .ok (some { raw := some (lineText p c ms t), tags := [], pfx := p, command := c,
                  params := { middle := if ms = [] then none else some ms, trailing := t } }) :=
  parseMessage_lineText_eq p c ms t hp hc hc0 hms ht hlen

/-- C2, at the lines `":irc.example.com 001 nick :Welcome"` and `"PING"`. -/
theorem parseMessage_lineText_witness :
    parseMessage ":irc.example.com 001 nick :Welcome".toList =
      .ok (some { raw := some ":irc.example.com 001 nick :Welcome".toList, tags := [],
                  pfx := some "irc.example.com".toList, command := "001".toList,
                  params := { middle := some ["nick".toList],
                              trailing := some "Welcome".toList } }) ∧
    parseMessage "PING".toList =
      .ok (some { raw := some "PING".toList, tags := [], pfx := none,
                  command := "PING".toList,
                  params := { middle := none, trailing := none } }) :=
  ⟨parseMessage_lineText (some "irc.example.com".toList) "001".toList ["nick".toList]
    (some "Welcome".toList) (by decide) (by decide) (by decide) (by decide) (by decide)
    (by decide),
   parseMessage_lineText none "PING".toList [] none (by decide) (by decide) (by decide)
    (by decide) (by decide) (by decide)⟩

/-- C1 as stated fails.  The message with source `"a\rb"`, command `X` and
trailing parameter `t` is written as `":a\rb X :t"`, which `parseMessage` cuts at
the carriage return and rejects.  The message with command `PING` and nothing
else is written as `"PING "` and read back with one empty middle parameter.
The message with the tag `a=1`, command `PING` and trailing parameter `x` is
written as `"@a=1 PING :x"` and read back with the tag value `"1 "`. -/
theorem roundtrip_fails :
    (messageText { raw := none, tags := [], pfx := some "a\rb".toList, command := "X".toList,
                   params := { middle := none, trailing := some "t".toList } } =
       .ok ":a\rb X :t".toList ∧
     parseMessage ":a\rb X :t".toList = .ok none) ∧
    (messageText { raw := none, tags := [], pfx := none, command := "PING".toList,
                   params := { middle := none, trailing := none } } = .ok "PING ".toList ∧
     parseMessage "PING ".toList =
       .ok (some { raw := some "PING ".toList, tags := [], pfx := none,
                   command := "PING".toList,
                   params := { middle := some [[]], trailing := none } })) ∧
    (messageText { raw := none, tags := [("a".toList, .text "1".toList)], pfx := none,
                   command := "PING".toList,
                   params := { middle := none, trailing := some "x".toList } } =
       .ok "@a=1 PING :x".toList ∧
     parseMessage "@a=1 PING :x".toList =
       .ok (some { raw := some "@a=1 PING :x".toList,
                   tags := [("a".toList, .text "1 ".toList)], pfx := none,
                   command := "PING".toList,
                   params := { middle := none, trailing := some "x".toList } })) :=
  ⟨⟨rfl, rfl⟩, ⟨rfl, rfl⟩, ⟨rfl, rfl⟩⟩

/-- C1, amended: the round trip for messages without tags that carry a trailing
parameter.  For a message with `raw` unset, no tags, an optional source `p`
(no space, no CR), a command `c` (non-empty, no space, no CR, not starting
with `'@'` or `':'`), middle parameters (each non-empty, free of space and CR,
not starting with `':'`) and a trailing parameter `t` (no CR), `parseMessage`
of the text that `write` sends succeeds and returns the same command, source,
tags, middle parameters (an absent list when there is none) and trailing
parameter. -/
theorem roundtrip_trailing (p : Option Str) (c : Str) (middle : Option (List Str)) (t : Str)
    (hp : ∀ s, p = some s → ' ' ∉ s ∧ '\r' ∉ s)
    (hc : c ≠ [] ∧ ' ' ∉ c ∧ '\r' ∉ c ∧ c.head? ≠ some '@' ∧ c.head? ≠ some ':')
    (hms : ∀ m ∈ middle.getD [], m ≠ [] ∧ ' ' ∉ m ∧ '\r' ∉ m ∧ m.head? ≠ some ':')
    (ht : '\r' ∉ t)
    (hlen : ∀ text,
      messageText { raw := none, tags := [], pfx := p, command := c,
                    params := { middle := middle, trailing := some t } } = .ok text →
      text.length < npos) :
    ∃ text msg,
      messageText { raw := none, tags := [], pfx := p, command := c,
                    params := { middle := middle, trailing := some t } } = .ok text ∧
      parseMessage text = .ok (some msg) ∧
      msg.command = c ∧ msg.pfx = p ∧ msg.tags = [] ∧
      msg.params.middle = (if middle.getD [] = [] then none else middle) ∧
      msg.params.trailing = some t := by
  have h1 := messageText_trailing p c middle t
  have h2 := parseMessage_lineText_eq p c (middle.getD []) (some t) hp ⟨hc.1, hc.2.1, hc.2.2.1⟩
    (fun _ => hc.2.2.2) hms (fun s hs => by cases hs; exact ht) (hlen _ h1)
  refine ⟨_, _, h1, h2, rfl, rfl, rfl, ?_, rfl⟩
  cases middle with
  | none => rfl
  | some ms => by_cases hm : ms = [] <;> simp [hm]

/-- C1 amended, at the message with source `irc.example.com`, command `001`,
middle parameter `nick` and trailing parameter `Welcome`. -/
theorem roundtrip_trailing_witness :
    ∃ text msg,
      messageText { raw := none, tags := [], pfx := some "irc.example.com".toList,
                    command := "001".toList,
                    params := { middle := some ["nick".toList],
                                trailing := some "Welcome".toList } } = .ok text ∧
      parseMessage text = .ok (some msg) ∧
      msg.command = "001".toList ∧ msg.pfx = some "irc.example.com".toList ∧ msg.tags = [] ∧
      msg.params.middle = some ["nick".toList] ∧
      msg.params.trailing = some "Welcome".toList :=
  roundtrip_trailing (some "irc.example.com".toList) "001".toList (some ["nick".toList])
    "Welcome".toList (by decide) (by decide) (by decide) (by decide)
    (fun text h => by cases h; decide)

/-- C3 (does not hold on the code): on the line `"@badge=1;vip PRIVMSG #chan :hi"`
the tag block handed to `splitAtSep` is `raw.substr(1, nextspace)`, which ends
with the space, so the second key is `"vip "` and the map has no key `"vip"`. -/
theorem parseMessage_tagged_line :
    parseMessage "@badge=1;vip PRIVMSG #chan :hi".toList =
      .ok (some { raw := some "@badge=1;vip PRIVMSG #chan :hi".toList,
                  tags := [("badge".toList, .text "1".toList), ("vip ".toList, .flag true)],
                  pfx := none, command := "PRIVMSG".toList,
                  params := { middle := some ["#chan".toList],
                              trailing := some "hi".toList } }) ∧
    getTag [("badge".toList, .text "1".toList), ("vip ".toList, .flag true)] "vip".toList =
      none :=
  ⟨rfl, rfl⟩

/-- C8 (does not hold on the code): for the empty string and for every string
of spaces only, `parseMessage` returns a message, whose command is empty,
where the claim has it fail. -/
theorem parseMessage_spaces (sp : Str) (hsp : ∀ x ∈ sp, x = ' ') (hlen : sp.length < npos) :
    parseMessage sp =
      .ok (some { raw := some sp, tags := [], pfx := none, command := [],
                  params := { middle := none, trailing := none } }) := by
  have hcut : sp.takeWhile (fun x => x != '\r') = sp := by
    rw [List.takeWhile_eq_self_iff]
    intro x hx
    rw [hsp x hx]
    decide
  rw [parseMessage_eq_parseRaw sp hlen, hcut]
  have h1 : ∃ c, charAt sp 0 = .ok c ∧ c ≠ '@' := by
    cases sp with
    | nil => exact ⟨Char.ofNat 0, rfl, by decide⟩
    | cons x sp =>
      refine ⟨x, rfl, ?_⟩
      rw [hsp x (by simp)]
      decide
  obtain ⟨c, hc, hne⟩ := h1
  have h2 := skipSpaces_run_end sp hsp (sp.length + 1) sp [] rfl (by omega)
  have h3 : find sp ' ' sp.length = npos := find_none sp [] ' ' (by simp) (by simp)
  have h4 : substr sp sp.length npos = .ok [] := substr_rest sp [] (by simp) (by simp)
  simp only [List.length_nil, Nat.zero_add] at h2
  simp only [parseRaw, hc, if_neg hne, h2, parseSource, charAt_end, parseCommand, h3, if_true,
    hlen, h4]
  rfl

/-- C8, at the empty string and at the string of three spaces. -/
theorem parseMessage_spaces_witness :
    parseMessage [] =
      .ok (some { raw := some [], tags := [], pfx := none, command := [],
                  params := { middle := none, trailing := none } }) ∧
    parseMessage "   ".toList =
      .ok (some { raw := some "   ".toList, tags := [], pfx := none, command := [],
                  params := { middle := none, trailing := none } }) :=
  ⟨parseMessage_spaces [] (by decide) (by decide),
   parseMessage_spaces "   ".toList (by decide) (by decide)⟩

/-- C9 (does not hold on the code): on the lines `":server "` and `"@tag "`
`parseMessage` returns a message whose command is empty. -/
theorem parseMessage_empty_command :
    parseMessage ":server ".toList =
      .ok (some { raw := some ":server ".toList, tags := [], pfx := some "server".toList,
                  command := [], params := { middle := none, trailing := none } }) ∧
    parseMessage "@tag ".toList =
      .ok (some { raw := some "@tag ".toList, tags := [("tag ".toList, .flag true)],
                  pfx := none, command := [],
                  params := { middle := none, trailing := none } }) :=
  ⟨rfl, rfl⟩

/-- C10: bounds safety of `parseMessage`.  In the embedding every access
`raw[i]` with `i > raw.size()`, every `substr` starting beyond the end and
every vector access beyond the end is a fault, and the loops run on fuel; for
every input line `parseMessage` returns a result and no fault. -/
theorem parseMessage_in_bounds (msg : Str) : ∃ r, parseMessage msg = .ok r :=
  parseMessage_ok msg

/-! ## The claims about batches -/

/-- C4: for every batch, `splitBatch` hands to the consumer exactly the
successful parses of the lines that `splitAtSep` cuts the batch into at CRLF,
in line order and once each; a line that does not parse is passed over. -/
theorem splitBatch_delivered (irc : Irc) (batch : Str) :
    ∃ rawMessages irc', splitAtSep batch ['\r', '\n'] = .ok rawMessages ∧
      (∀ line ∈ rawMessages, ∃ r, parseMessage line = .ok r) ∧
      splitBatch irc batch = .ok irc' ∧
      irc'.delivered = irc.delivered ++ rawMessages.filterMap parsedLine := by
  obtain ⟨rawMessages, h1, _⟩ := splitAtSep_ok batch ['\r', '\n'] (by simp)
  refine ⟨rawMessages, Irc.mk (irc.sent ++ rawMessages.filterMap pongLine)
    (irc.delivered ++ rawMessages.filterMap parsedLine), h1,
    fun line _ => parseMessage_ok line, ?_, rfl⟩
  simp only [splitBatch, h1, splitBatchLoop_eq]

/-- C5: for every batch, the texts `splitBatch` sends are exactly, in line
order, `"PONG :" + token` for each line that parses to the command `PING` with
a trailing parameter `token`; every parsed message, the `PING` included,
still reaches the consumer once. -/
theorem splitBatch_sent (irc : Irc) (batch : Str) :
    ∃ rawMessages irc', splitAtSep batch ['\r', '\n'] = .ok rawMessages ∧
      splitBatch irc batch = .ok irc' ∧
      irc'.sent = irc.sent ++ rawMessages.filterMap pongLine ∧
      irc'.delivered = irc.delivered ++ rawMessages.filterMap parsedLine := by
  obtain ⟨rawMessages, h1, _⟩ := splitAtSep_ok batch ['\r', '\n'] (by simp)
  refine ⟨rawMessages, Irc.mk (irc.sent ++ rawMessages.filterMap pongLine)
    (irc.delivered ++ rawMessages.filterMap parsedLine), h1, ?_, rfl, rfl⟩
  simp only [splitBatch, h1, splitBatchLoop_eq]

/-- The batch `"PING :abc123"` sends `"PONG :abc123"` and delivers one message;
the batch `"PING"` sends nothing and delivers one message. -/
theorem splitBatch_ping :
    splitBatch { sent := [], delivered := [] } "PING :abc123".toList =
      .ok { sent := ["PONG :abc123".toList],
            delivered := [{ raw := some "PING :abc123".toList, tags := [], pfx := none,
                            command := "PING".toList,
                            params := { middle := none,
                                        trailing := some "abc123".toList } }] } ∧
    splitBatch { sent := [], delivered := [] } "PING".toList =
      .ok { sent := [],
            delivered := [{ raw := some "PING".toList, tags := [], pfx := none,
                            command := "PING".toList,
                            params := { middle := none, trailing := none } }] } :=
  ⟨rfl, rfl⟩

/-- C6 as stated fails: the batch `"A\r\nBADLINE@\r\nB\r\n"` does not deliver
exactly the two messages with commands `A` and `B`. -/
theorem splitBatch_badline_not_two :
    ¬ ∃ irc', splitBatch { sent := [], delivered := [] } "A\r\nBADLINE@\r\nB\r\n".toList =
        .ok irc' ∧ irc'.delivered.map IRCMessage.command = ["A".toList, "B".toList] := by
  rintro ⟨irc', h1, h2⟩
  have h3 : splitBatch { sent := [], delivered := [] } "A\r\nBADLINE@\r\nB\r\n".toList =
      .ok { sent := [],
            delivered := [
              { raw := some "A".toList, tags := [], pfx := none, command := "A".toList,
                params := { middle := none, trailing := none } },
              { raw := some "BADLINE@".toList, tags := [], pfx := none,
                command := "BADLINE@".toList,
                params := { middle := none, trailing := none } },
              { raw := some "B".toList, tags := [], pfx := none, command := "B".toList,
                params := { middle := none, trailing := none } },
              { raw := some [], tags := [], pfx := none, command := [],
                params := { middle := none, trailing := none } }] } := rfl
  rw [h3] at h1
  cases h1
  exact absurd h2 (by decide)

/-- C6, amended: `parseMessage` accepts the line `"BADLINE@"` as a message with
the command `"BADLINE@"`, and the batch `"A\r\nBADLINE@\r\nB\r\n"` delivers, for
its three lines and in their order, the messages with the commands `A`,
`BADLINE@` and `B`, sending nothing. -/
theorem splitBatch_badline :
    parseMessage "BADLINE@".toList =
      .ok (some { raw := some "BADLINE@".toList, tags := [], pfx := none,
                  command := "BADLINE@".toList,
                  params := { middle := none, trailing := none } }) ∧
    ∃ irc' more, splitBatch { sent := [], delivered := [] } "A\r\nBADLINE@\r\nB\r\n".toList =
        .ok irc' ∧ irc'.sent = [] ∧
      irc'.delivered.map IRCMessage.command =
        ["A".toList, "BADLINE@".toList, "B".toList] ++ more :=
  ⟨rfl, _, [[]], rfl, rfl, rfl⟩

/-! ## The serializer -/

theorem writeMiddle_eq (ms : List Str) (acc : Str) :
    writeMiddle ms acc = acc ++ middleText ms := by
  induction ms generalizing acc with
  | nil => simp [writeMiddle, middleText]
  | cons m ms ih => simp [writeMiddle, middleText, ih]

/-- C11: for every message with `raw` unset and no tags, the text `write`
sends is the reference form: `":" + source + " "` if the source is set, then
the command and a space, then each middle parameter followed by a space in
stored order, then `":" + trailing` if the trailing parameter is set. -/
theorem messageText_reference (irc : Irc) (msg : IRCMessage) (hraw : msg.raw = none)
    (htags : msg.tags = []) :
    messageText msg = .ok (referenceText msg) ∧
    write irc msg = .ok { irc with sent := irc.sent ++ [referenceText msg] } := by
  have h : messageText msg = .ok (referenceText msg) := by
    obtain ⟨raw, tags, p, c, middle, trailing⟩ := msg
    simp only at hraw htags
    subst hraw htags
    cases p <;> cases middle <;> cases trailing <;>
      simp [messageText, referenceText, writeMiddle_eq, middleText]
  exact ⟨h, by simp [write, h, send]⟩

/-- C11, at the message with source `irc.example.com`, command `001`, middle
parameters `nick` and `x`, and trailing parameter `Welcome home`. -/
theorem messageText_reference_witness :
    messageText { raw := none, tags := [], pfx := some "irc.example.com".toList,
                  command := "001".toList,
                  params := { middle := some ["nick".toList, "x".toList],
                              trailing := some "Welcome home".toList } } =
      .ok ":irc.example.com 001 nick x :Welcome home".toList ∧
    write { sent := [], delivered := [] }
          { raw := none, tags := [], pfx := some "irc.example.com".toList,
            command := "001".toList,
            params := { middle := some ["nick".toList, "x".toList],
                        trailing := some "Welcome home".toList } } =
      .ok { sent := [":irc.example.com 001 nick x :Welcome home".toList], delivered := [] } :=
  messageText_reference { sent := [], delivered := [] } _ rfl rfl

/-- C12 (does not hold on the code): with the single boolean tag `vip` and the
command `X`, `write` sends `"@vi X "`, where the tag block of the claim is
`"@vip "`; with the tags `vip` (boolean) and `a=1` in this order it sends
`"@vipa=1 X "`, where the tag block of the claim is `"@vip;a=1 "`. -/
theorem messageText_boolean_tag :
    messageText { raw := none, tags := [("vip".toList, .flag true)], pfx := none,
                  command := "X".toList,
                  params := { middle := none, trailing := none } } = .ok "@vi X ".toList ∧
    tagBlockText [("vip".toList, .flag true)] = "@vip ".toList ∧
    messageText { raw := none, tags := [("vip".toList, .flag true), ("a".toList, .text "1".toList)],
                  pfx := none, command := "X".toList,
                  params := { middle := none, trailing := none } } =
      .ok "@vipa=1 X ".toList ∧
    tagBlockText [("vip".toList, .flag true), ("a".toList, .text "1".toList)] =
      "@vip;a=1 ".toList :=
  ⟨rfl, rfl, rfl, rfl⟩

/-! ## Further claims about single lines -/

/-- C15 (does not hold on the code): on the line `"@k=a=b;x CMD"` the piece
`"k=a=b"` is cut at every `'='` and the key `k` gets the text `"a"`, where the
claim has `"a=b"`. -/
theorem parseMessage_tag_value_cut :
    parseMessage "@k=a=b;x CMD".toList =
      .ok (some { raw := some "@k=a=b;x CMD".toList,
                  tags := [("k".toList, .text "a".toList), ("x ".toList, .flag true)],
                  pfx := none, command := "CMD".toList,
                  params := { middle := none, trailing := none } }) ∧
    splitAtSep "k=a=b".toList ['='] = .ok ["k".toList, "a".toList, "b".toList] :=
  ⟨rfl, rfl⟩

/-- C17 (does not hold on the code): on the line `"CMD a  "`, which ends with
spaces, `parseMessage` returns the middle parameters `"a"` and `""`. -/
theorem parseMessage_empty_middle :
    parseMessage "CMD a  ".toList =
      .ok (some { raw := some "CMD a  ".toList, tags := [], pfx := none,
                  command := "CMD".toList,
                  params := { middle := some ["a".toList, []], trailing := none } }) :=
  rfl

theorem cutAtCR_idem (line : Str) : cutAtCR (cutAtCR line) = cutAtCR line := by
  unfold cutAtCR
  rw [List.takeWhile_eq_self_iff]
  intro x hx
  have h := @List.mem_takeWhile_imp Char (fun x => x != '\r') line x hx
  exact h

theorem cutAtCR_append_cr (line : Str) (h : '\r' ∉ line) : cutAtCR (line ++ ['\r']) = line := by
  unfold cutAtCR
  induction line with
  | nil => rfl
  | cons x line ih =>
    simp only [List.mem_cons, not_or] at h
    have hx : (x != '\r') = true := by simp [Ne.symm h.1]
    simp only [List.cons_append, List.takeWhile_cons, hx, if_true, ih h.2]

theorem cutAtCR_self (line : Str) (h : '\r' ∉ line) : cutAtCR line = line := by
  unfold cutAtCR
  rw [List.takeWhile_eq_self_iff]
  intro x hx
  have : x ≠ '\r' := fun e => h (e ▸ hx)
  simp [this]

theorem parseMessage_eq_cut (line : Str) (h : line.length < npos) :
    parseMessage line = parseRaw (cutAtCR line) :=
  parseMessage_eq_parseRaw line h

/-- C18: for every line, `parseMessage` of the line equals `parseMessage` of
the line cut off at its first carriage return; for a line without carriage
return, appending one changes nothing in the result. -/
theorem parseMessage_cut (line : Str) (hlen : line.length + 1 < npos) :
    parseMessage line = parseMessage (cutAtCR line) ∧
    ('\r' ∉ line → parseMessage (line ++ ['\r']) = parseMessage line) := by
  have hcut : (cutAtCR line).length ≤ line.length := length_takeWhile_le _ line
  refine ⟨?_, fun hcr => ?_⟩
  · rw [parseMessage_eq_cut line (by omega), parseMessage_eq_cut (cutAtCR line) (by omega),
      cutAtCR_idem]
  · rw [parseMessage_eq_cut line (by omega),
      parseMessage_eq_cut (line ++ ['\r']) (by simp; omega),
      cutAtCR_append_cr line hcr, cutAtCR_self line hcr]

/-- C18, at the lines `"PING :x\rjunk"` and `"PING :x"`. -/
theorem parseMessage_cut_witness :
    parseMessage "PING :x\rjunk".toList = parseMessage (cutAtCR "PING :x\rjunk".toList) ∧
    parseMessage ("PING :x".toList ++ ['\r']) = parseMessage "PING :x".toList :=
  ⟨(parseMessage_cut "PING :x\rjunk".toList (by decide)).1,
   (parseMessage_cut "PING :x".toList (by decide)).2 (by decide)⟩

theorem parseCommand_raw {raw : Str} {message m : IRCMessage} {position : Nat}
    (h : parseCommand raw message position = .ok (some m)) : m.raw = message.raw := by
  simp only [parseCommand] at h
  repeat' split at h
  all_goals (cases h <;> rfl)

theorem parseSource_raw {raw : Str} {message m : IRCMessage} {position : Nat}
    (h : parseSource raw message position = .ok (some m)) : m.raw = message.raw := by
  unfold parseSource at h
  cases hc : charAt raw position with
  | error e => simp [hc] at h
  | ok c =>
    simp only [hc] at h
    by_cases hcolon : c = ':'
    · simp only [hcolon, if_true] at h
      by_cases hns : find raw ' ' position = npos
      · simp [hns] at h
      · simp only [hns, if_false] at h
        cases hs : substr raw (position + 1) (find raw ' ' position - (position + 1)) with
        | error e => simp [hs] at h
        | ok p =>
          simp only [hs] at h
          cases hk : skipSpaces (raw.length + 1) raw (find raw ' ' position + 1) with
          | error e => simp [hk] at h
          | ok q =>
            simp only [hk] at h
            exact (parseCommand_raw h).trans rfl
    · simp only [hcolon, if_false] at h
      exact parseCommand_raw h

theorem parseRaw_raw {raw : Str} {m : IRCMessage} (h : parseRaw raw = .ok (some m)) :
    m.raw = some raw := by
  unfold parseRaw at h
  cases hc : charAt raw 0 with
  | error e => simp [hc] at h
  | ok c =>
    simp only [hc] at h
    by_cases hat : c = '@'
    · simp only [hat, if_true] at h
      by_cases hns : find raw ' ' 0 = npos
      · simp [hns] at h
      · simp only [hns, if_false] at h
        cases hs : substr raw 1 (find raw ' ' 0) with
        | error e => simp [hs] at h
        | ok block =>
          simp only [hs] at h
          cases hsp : splitAtSep block [';'] with
          | error e => simp [hsp] at h
          | ok rawTags =>
            simp only [hsp] at h
            cases ht : parseTags rawTags [] with
            | error e => simp [ht] at h
            | ok tags =>
              simp only [ht] at h
              cases hk : skipSpaces (raw.length + 1) raw (find raw ' ' 0 + 1) with
              | error e => simp [hk] at h
              | ok q =>
                simp only [hk] at h
                exact (parseSource_raw h).trans rfl
    · simp only [hat, if_false] at h
      cases hk : skipSpaces (raw.length + 1) raw 0 with
      | error e => simp [hk] at h
      | ok q =>
        simp only [hk] at h
        exact (parseSource_raw h).trans rfl

/-- C20: every message returned by a successful `parseMessage` of a line has
its `raw` field set to the line cut off at its first carriage return, and
`write` of that message sends exactly this text, whatever the other fields
of the message hold. -/
theorem write_parsed (irc : Irc) (line : Str) (msg : IRCMessage) (hlen : line.length < npos)
    (h : parseMessage line = .ok (some msg)) :
    msg.raw = some (cutAtCR line) ∧
    messageText msg = .ok (cutAtCR line) ∧
    write irc msg = .ok { irc with sent := irc.sent ++ [cutAtCR line] } := by
  rw [parseMessage_eq_cut line hlen] at h
  have hraw := parseRaw_raw h
  have htext : messageText msg = .ok (cutAtCR line) := by simp [messageText, hraw]
  exact ⟨hraw, htext, by simp [write, htext, send]⟩

/-- C20, at the line `"@a=1 :src PING x :y z\r"`. -/
theorem write_parsed_witness :
    ∃ msg, parseMessage "@a=1 :src PING x :y z\r".toList = .ok (some msg) ∧
      msg.raw = some "@a=1 :src PING x :y z".toList ∧
      messageText msg = .ok "@a=1 :src PING x :y z".toList ∧
      write { sent := [], delivered := [] } msg =
        .ok { sent := ["@a=1 :src PING x :y z".toList], delivered := [] } :=
  ⟨_, rfl, write_parsed { sent := [], delivered := [] } "@a=1 :src PING x :y z\r".toList _
    (by decide) rfl⟩

/-! ## The tokenizer -/

theorem startsWith_iff (sep s : Str) : startsWith sep s = true ↔ ∃ rest, s = sep ++ rest := by
  induction sep generalizing s with
  | nil => simp [startsWith]
  | cons a sep ih =>
    cases s with
    | nil => simp [startsWith]
    | cons x s =>
      simp only [startsWith, Bool.and_eq_true, beq_iff_eq, ih, List.cons_append, List.cons.injEq]
      constructor
      · rintro ⟨rfl, rest, rfl⟩
        exact ⟨rest, rfl, rfl⟩
      · rintro ⟨rest, rfl, rfl⟩
        exact ⟨rfl, rest, rfl⟩

theorem startsWith_nil_right {sep : Str} (hsep : sep ≠ []) : startsWith sep [] = false := by
  cases sep with
  | nil => exact absurd rfl hsep
  | cons a sep => rfl

theorem findStrFrom_found (sep xs : Str) (i : Nat) (h : findStrFrom sep xs i ≠ npos) :
    startsWith sep (xs.drop (findStrFrom sep xs i - i)) = true := by
  induction xs generalizing i with
  | nil =>
    simp only [findStrFrom] at h ⊢
    split at h
    · rename_i hs
      subst hs
      simp [startsWith]
    · exact absurd rfl h
  | cons x xs ih =>
    simp only [findStrFrom] at h ⊢
    split
    · rename_i hs
      simpa using hs
    · rename_i hs
      simp only [hs] at h
      have h1 := ih (i + 1) (by simpa using h)
      rcases findStrFrom_bound sep xs (i + 1) with h2 | ⟨h2, _⟩
      · exact absurd h2 (by simpa using h)
      · have e : findStrFrom sep xs (i + 1) - i = (findStrFrom sep xs (i + 1) - (i + 1)) + 1 := by
          omega
        rw [e, List.drop_succ_cons]
        exact h1

theorem findStrFrom_min (sep xs : Str) (hsep : sep ≠ []) (i k : Nat)
    (h : i + k < findStrFrom sep xs i) : startsWith sep (xs.drop k) = false := by
  induction xs generalizing i k with
  | nil => simp [startsWith_nil_right hsep]
  | cons x xs ih =>
    simp only [findStrFrom] at h
    split at h
    · omega
    · rename_i hs
      cases k with
      | zero => simpa using hs
      | succ k =>
        rw [List.drop_succ_cons]
        exact ih (i + 1) k (by omega)

theorem findStr_found {str sep : Str} {start : Nat} (h : findStr str sep start ≠ npos) :
    ∃ rest, str.drop (findStr str sep start) = sep ++ rest := by
  have hb := findStr_bound h
  unfold findStr at h hb ⊢
  split at h
  · rename_i hp
    simp only [hp, if_true] at hb ⊢
    have h1 := findStrFrom_found sep (str.drop start) start h
    rw [List.drop_drop] at h1
    have e : start + (findStrFrom sep (str.drop start) start - start) =
        findStrFrom sep (str.drop start) start := by omega
    rw [e] at h1
    exact (startsWith_iff _ _).mp h1
  · exact absurd rfl h

theorem findStr_min {str sep : Str} {start k : Nat} (hsep : sep ≠ [])
    (hs : start ≤ str.length) (h1 : start ≤ k) (h2 : k < findStr str sep start) :
    startsWith sep (str.drop k) = false := by
  unfold findStr at h2
  simp only [hs, if_true] at h2
  have h3 := findStrFrom_min sep (str.drop start) hsep start (k - start) (by omega)
  rw [List.drop_drop] at h3
  have e : start + (k - start) = k := by omega
  rw [e] at h3
  exact h3

theorem not_infix_take (sep s : Str) (m : Nat) (hsep : sep ≠ [])
    (h : ∀ k, k < m → startsWith sep (s.drop k) = false) : ¬ sep <:+: s.take m := by
  rintro ⟨a, b, hab⟩
  have hlen : a.length + sep.length + b.length = (s.take m).length := by
    rw [← hab]; simp only [List.length_append]
  have hpos : 0 < sep.length := List.length_pos.mpr hsep
  have hm : (s.take m).length ≤ m := by simp [List.length_take]
  have h1 := h a.length (by omega)
  have h2 : s = a ++ sep ++ b ++ s.drop m := by
    rw [hab, List.take_append_drop]
  have h3 : s.drop a.length = sep ++ (b ++ s.drop m) := by
    conv_lhs => rw [h2]
    simp [List.append_assoc, List.drop_left]
  have h4 := (startsWith_iff sep (s.drop a.length)).mpr ⟨_, h3⟩
  rw [h1] at h4
  exact absurd h4 (by simp)

theorem joinWith_cons (sep x : Str) (l : List Str) (h : l ≠ []) :
    joinWith sep (x :: l) = x ++ sep ++ joinWith sep l := by
  cases l with
  | nil => exact absurd rfl h
  | cons y rest => rfl

theorem splitAtSepLoop_spec (str sep : Str) (hsep : sep ≠ []) (hlen : str.length < npos)
    (fuel start : Nat) (out : List Str) (hs : start ≤ str.length)
    (hf : str.length - start < fuel) :
    ∃ s' ps, splitAtSepLoop fuel str sep start (findStr str sep start) out = .ok (s', out ++ ps) ∧
      s' ≤ str.length ∧ (∀ k, s' ≤ k → startsWith sep (str.drop k) = false) ∧
      joinWith sep (ps ++ [str.drop s']) = str.drop start ∧ ∀ p ∈ ps, ¬ sep <:+: p := by
  induction fuel generalizing start out with
  | zero => omega
  | succ fuel ih =>
    have hpos : 0 < sep.length := List.length_pos.mpr hsep
    simp only [splitAtSepLoop]
    split
    · rename_i hne
      obtain ⟨h1, h2⟩ := findStr_bound hne
      obtain ⟨rest, h3⟩ := findStr_found hne
      generalize he : findStr str sep start = e at hne h1 h2 h3
      have h4 : str.drop (e + sep.length) = rest := by
        rw [← List.drop_drop, h3, List.drop_left]
      rw [substr_ok _ hs]
      obtain ⟨s', ps, h5, h6, h7, h8, h9⟩ := ih (e + sep.length)
        (out ++ [(str.drop start).take (e - start)]) h2 (by omega)
      refine ⟨s', (str.drop start).take (e - start) :: ps, ?_, h6, h7, ?_, ?_⟩
      · simp only [h5]; simp
      · rw [List.cons_append, joinWith_cons _ _ _ (by simp), h8, h4, List.append_assoc, ← h3]
        have e1 : str.drop e = (str.drop start).drop (e - start) := by
          rw [List.drop_drop]; congr 1; omega
        rw [e1, List.take_append_drop]
      · intro p hp
        simp only [List.mem_cons] at hp
        rcases hp with rfl | hp
        · apply not_infix_take sep (str.drop start) (e - start) hsep
          intro k hk
          rw [List.drop_drop]
          exact findStr_min hsep hs (by omega) (by rw [he]; omega)
        · exact h9 p hp
    · rename_i hne
      have hnone : findStr str sep start = npos := by
        by_contra hc; exact hne hc
      refine ⟨start, [], by simp, hs, ?_, by simp [joinWith], by simp⟩
      intro k hk
      rcases Nat.lt_or_ge str.length k with hgt | hle
      · rw [List.drop_eq_nil_of_le (by omega)]
        exact startsWith_nil_right hsep
      · exact findStr_min hsep hs hk (by rw [hnone]; omega)

theorem splitAtSep_spec (text sep : Str) (hsep : sep ≠ []) (hlen : text.length < npos) :
    ∃ s' ps, splitAtSep text sep = .ok (ps ++ [text.drop s']) ∧
      joinWith sep (ps ++ [text.drop s']) = text ∧
      (∀ p ∈ ps, ¬ sep <:+: p) ∧ ¬ sep <:+: text.drop s' := by
  obtain ⟨s', ps, h1, h2, h3, h4, h5⟩ :=
    splitAtSepLoop_spec text sep hsep hlen (text.length + 1) 0 [] (Nat.zero_le _) (by omega)
  refine ⟨s', ps, ?_, by simpa using h4, h5, ?_⟩
  · have hs' : s' ≠ npos := by omega
    simp only [splitAtSep, splitAtSepFuel, h1, ne_eq, hs', not_false_eq_true, if_true,
      substr_ok _ h2, List.nil_append]
    rw [List.take_of_length_le (by simp; omega)]
  · have h6 := not_infix_take sep (text.drop s') (text.drop s').length hsep
      (fun k _ => by rw [List.drop_drop]; exact h3 _ (by omega))
    rwa [List.take_length] at h6

/-- C13: for every text and every non-empty separator, `splitAtSep` returns a
list whose elements, joined with the separator put back between consecutive
elements, give the text again. -/
theorem splitAtSep_join (text sep : Str) (hsep : sep ≠ []) (hlen : text.length < npos) :
    ∃ out, splitAtSep text sep = .ok out ∧ joinWith sep out = text := by
  obtain ⟨s', ps, h1, h2, _, _⟩ := splitAtSep_spec text sep hsep hlen
  exact ⟨_, h1, h2⟩

/-- C13, at the text `"a=b;;c=d;"` and the separator `";"`. -/
theorem splitAtSep_join_witness :
    ∃ out, splitAtSep "a=b;;c=d;".toList [';'] = .ok out ∧
      joinWith [';'] out = "a=b;;c=d;".toList :=
  splitAtSep_join "a=b;;c=d;".toList [';'] (by decide) (by decide)

/-- C14: for every text and every non-empty separator, no element of the list
that `splitAtSep` returns contains the separator as a substring. -/
theorem splitAtSep_no_separator (text sep : Str) (hsep : sep ≠ [])
    (hlen : text.length < npos) :
    ∃ out, splitAtSep text sep = .ok out ∧ ∀ p ∈ out, ¬ sep <:+: p := by
  obtain ⟨s', ps, h1, _, h3, h4⟩ := splitAtSep_spec text sep hsep hlen
  refine ⟨_, h1, fun p hp => ?_⟩
  simp only [List.mem_append, List.mem_singleton] at hp
  rcases hp with hp | rfl
  · exact h3 p hp
  · exact h4

/-- C14, at the text `"A\r\nB\r\r\nC"` and the separator CRLF. -/
theorem splitAtSep_no_separator_witness :
    ∃ out, splitAtSep "A\r\nB\r\r\nC".toList ['\r', '\n'] = .ok out ∧
      ∀ p ∈ out, ¬ ['\r', '\n'] <:+: p :=
  splitAtSep_no_separator "A\r\nB\r\r\nC".toList ['\r', '\n'] (by decide) (by decide)

theorem selfOverlaps_false {sep : Str} (h : selfOverlaps sep = false) (d : Nat) (h0 : 0 < d)
    (hd : d < sep.length) : startsWith (sep.drop d) sep = false := by
  unfold selfOverlaps at h
  rw [List.any_eq_false] at h
  have h1 := h d (List.mem_range.mpr hd)
  simp only [Bool.and_eq_true, decide_eq_true_eq, not_and] at h1
  cases hs : startsWith (sep.drop d) sep with
  | false => rfl
  | true => exact absurd hs (h1 h0)

theorem no_overlap (str sep : Str) (hov : selfOverlaps sep = false) (e j : Nat)
    (he : ∃ r, str.drop e = sep ++ r) (hj : ∃ r, str.drop j = sep ++ r) (h1 : e < j) :
    e + sep.length ≤ j := by
  by_contra hc
  obtain ⟨r1, hr1⟩ := he
  obtain ⟨r2, hr2⟩ := hj
  have hd : j - e < sep.length := by omega
  have h2 : str.drop j = sep.drop (j - e) ++ r1 := by
    have e1 : str.drop j = (str.drop e).drop (j - e) := by
      rw [List.drop_drop]; congr 1; omega
    rw [e1, hr1, List.drop_append_of_le_length (by omega)]
  have h3 : sep.drop (j - e) <+: str.drop j := ⟨r1, h2.symm⟩
  have h4 : sep <+: str.drop j := ⟨r2, hr2.symm⟩
  have h5 : sep.drop (j - e) <+: sep :=
    List.prefix_of_prefix_length_le h3 h4 (by simp)
  obtain ⟨u, hu⟩ := h5
  have h6 := (startsWith_iff (sep.drop (j - e)) sep).mpr ⟨u, hu.symm⟩
  rw [selfOverlaps_false hov (j - e) (by omega) hd] at h6
  exact absurd h6 (by simp)

theorem findStr_at_end (str sep : Str) (hsep : sep ≠ []) :
    findStr str sep str.length = npos := by
  by_contra hc
  have hpos : 0 < sep.length := List.length_pos.mpr hsep
  obtain ⟨h1, h2⟩ := findStr_bound hc
  omega

theorem splitAtSepLoop_trailing (t sep : Str) (hsep : sep ≠ []) (hov : selfOverlaps sep = false)
    (hlen : (t ++ sep).length < npos) (fuel start : Nat) (out : List Str)
    (hs : start ≤ t.length ∨ start = (t ++ sep).length)
    (hf : (t ++ sep).length - start < fuel) :
    ∃ o', splitAtSepLoop fuel (t ++ sep) sep start (findStr (t ++ sep) sep start) out =
      .ok ((t ++ sep).length, o') := by
  induction fuel generalizing start out with
  | zero => omega
  | succ fuel ih =>
    have hpos : 0 < sep.length := List.length_pos.mpr hsep
    have hn : (t ++ sep).length = t.length + sep.length := List.length_append t sep
    rcases hs with hs | hs
    · have hlast : ∃ r, (t ++ sep).drop t.length = sep ++ r := ⟨[], by simp⟩
      have hle : findStr (t ++ sep) sep start ≤ t.length := by
        by_contra hc
        have h1 := findStr_min hsep (show start ≤ (t ++ sep).length by omega) hs
          (show t.length < findStr (t ++ sep) sep start by omega)
        rw [(startsWith_iff sep _).mpr hlast] at h1
        exact absurd h1 (by simp)
      have hne : findStr (t ++ sep) sep start ≠ npos := by omega
      obtain ⟨h1, h2⟩ := findStr_bound hne
      have hfound := findStr_found hne
      simp only [splitAtSepLoop, ne_eq, hne, not_false_eq_true, if_true,
        substr_ok _ (show start ≤ (t ++ sep).length by omega)]
      apply ih
      · rcases Nat.lt_or_ge (findStr (t ++ sep) sep start) t.length with hlt | hge
        · left
          exact no_overlap (t ++ sep) sep hov _ _ hfound hlast hlt
        · right
          omega
      · omega
    · subst hs
      have h1 := findStr_at_end (t ++ sep) sep hsep
      refine ⟨out, ?_⟩
      simp only [splitAtSepLoop, h1, ne_eq, not_true_eq_false, if_false]

/-- C16 as stated fails: the text `"aaa"` ends with the separator `"aa"`, and
`splitAtSep` returns `["", "a"]`, whose last element is not empty. -/
theorem splitAtSep_overlapping_separator :
    "aa".toList <:+ "aaa".toList ∧
    splitAtSep "aaa".toList "aa".toList = .ok [[], "a".toList] ∧
    ¬ ∃ out, splitAtSep "aaa".toList "aa".toList = .ok out ∧ out.getLast? = some [] := by
  refine ⟨⟨['a'], rfl⟩, rfl, ?_⟩
  rintro ⟨out, h1, h2⟩
  have h3 : splitAtSep "aaa".toList "aa".toList = .ok [[], "a".toList] := rfl
  rw [h3] at h1
  cases h1
  exact absurd h2 (by decide)

/-- C16, amended: for every text and every non-empty separator that does not
overlap itself (no proper non-empty end of it is also a beginning of it; so
every one-character separator and CRLF), if the text ends with the separator
then the last element of the list `splitAtSep` returns is the empty string. -/
theorem splitAtSep_trailing (text sep : Str) (hsep : sep ≠ [])
    (hov : selfOverlaps sep = false) (hend : sep <:+ text) (hlen : text.length < npos) :
    ∃ out, splitAtSep text sep = .ok out ∧ out.getLast? = some [] := by
  obtain ⟨t, rfl⟩ := hend
  obtain ⟨o', h1⟩ := splitAtSepLoop_trailing t sep hsep hov hlen ((t ++ sep).length + 1) 0 []
    (Or.inl (Nat.zero_le _)) (by omega)
  have hs' : (t ++ sep).length ≠ npos := by omega
  refine ⟨o' ++ [[]], ?_, List.getLast?_concat _⟩
  simp only [splitAtSep, splitAtSepFuel, h1, ne_eq, hs', not_false_eq_true, if_true,
    substr_ok _ (le_refl _), List.drop_length, List.take_nil]

/-- C16 amended, at the text `"a;"` with the separator `";"` and at the text
`"A\r\nB\r\n"` with the separator CRLF. -/
theorem splitAtSep_trailing_witness :
    (∃ out, splitAtSep "a;".toList [';'] = .ok out ∧ out.getLast? = some []) ∧
    (∃ out, splitAtSep "A\r\nB\r\n".toList ['\r', '\n'] = .ok out ∧ out.getLast? = some []) :=
  ⟨splitAtSep_trailing "a;".toList [';'] (by decide) (by decide) ⟨['a'], rfl⟩ (by decide),
   splitAtSep_trailing "A\r\nB\r\n".toList ['\r', '\n'] (by decide) (by decide)
     ⟨"A\r\nB".toList, rfl⟩ (by decide)⟩

/-! ## The tag block of the serializer, text tags only -/

theorem writeTags_text (tags : List (Str × TagValue)) (acc : Str)
    (h : ∀ kv ∈ tags, ∃ v, kv.2 = .text v) :
    writeTags tags acc = acc ++ semiText (tags.map tagText) := by
  induction tags generalizing acc with
  | nil => simp [writeTags, semiText]
  | cons kv tags ih =>
    obtain ⟨k, val⟩ := kv
    obtain ⟨v, hv⟩ := h (k, val) (by simp)
    simp only at hv
    subst hv
    simp only [writeTags, List.map_cons, tagText, semiText]
    rw [ih _ (fun kv hkv => h kv (by simp [hkv]))]
    simp

theorem semiText_eq_joinWith (rs : List Str) (h : rs ≠ []) :
    semiText rs = joinWith [';'] rs ++ [';'] := by
  induction rs with
  | nil => exact absurd rfl h
  | cons r rs ih =>
    cases rs with
    | nil => simp [semiText, joinWith]
    | cons r' rs =>
      rw [joinWith_cons _ _ _ (by simp)]
      simp only [semiText] at ih ⊢
      rw [ih (by simp)]
      simp

theorem setChar_last (a : Str) (c d : Char) :
    setChar (a ++ [c]) ((a ++ [c]).length - 1) d = .ok (a ++ [d]) := by
  have h1 : (a ++ [c]).length - 1 = a.length := by simp
  rw [h1]
  simp [setChar, List.set_append_right]

/-- The tag block holds when no tag is boolean: for every message with `raw`
unset and a non-empty tag list made of text tags only, `write` sends the tag
block of the specification followed by the tag-free reference form. -/
theorem messageText_text_tags (msg : IRCMessage) (hraw : msg.raw = none)
    (htags : msg.tags ≠ []) (htext : ∀ kv ∈ msg.tags, ∃ v, kv.2 = .text v) :
    messageText msg = .ok (tagBlockText msg.tags ++ referenceText msg) := by
  obtain ⟨raw, tags, p, c, middle, trailing⟩ := msg
  simp only at hraw htags htext
  subst hraw
  have hlen : tags.length > 0 := List.length_pos.mpr htags
  have h1 : writeTags tags ['@'] = (['@'] ++ joinWith [';'] (tags.map tagText)) ++ [';'] := by
    rw [writeTags_text tags _ htext, semiText_eq_joinWith _ (by simpa using htags)]
    simp
  have h2 := setChar_last (['@'] ++ joinWith [';'] (tags.map tagText)) ';' ' '
  rw [← h1] at h2
  simp only [messageText, hlen, if_true, h2]
  cases p <;> cases middle <;> cases trailing <;>
    simp [referenceText, tagBlockText, writeMiddle_eq, middleText]

/-! ## The shape of the middle parameters -/

theorem not_mem_take_findFrom (c : Char) (xs : Str) (i : Nat) :
    c ∉ xs.take (findFrom c xs i - i) := by
  induction xs generalizing i with
  | nil => simp
  | cons x xs ih =>
    simp only [findFrom]
    by_cases hx : x = c
    · simp [hx]
    · simp only [if_neg hx]
      rcases Nat.lt_or_ge (findFrom c xs (i + 1)) (i + 1) with hlt | hge
      · have e : findFrom c xs (i + 1) - i = 0 := by omega
        simp [e]
      · have e : findFrom c xs (i + 1) - i = (findFrom c xs (i + 1) - (i + 1)) + 1 := by omega
        rw [e, List.take_succ_cons]
        simp only [List.mem_cons, not_or]
        exact ⟨Ne.symm hx, ih (i + 1)⟩

theorem getD_of_head_take (l : Str) (pos k : Nat) (y d : Char)
    (h : ((l.drop pos).take k).head? = some y) : l.getD pos d = y := by
  cases k with
  | zero => simp at h
  | succ k =>
    rw [List.getD_eq_getElem?_getD]
    cases hd : l.drop pos with
    | nil => rw [hd] at h; simp at h
    | cons x r =>
      rw [hd] at h
      simp only [List.take_succ_cons, List.head?_cons, Option.some.injEq] at h
      have h1 := List.head?_drop l pos
      rw [hd] at h1
      simp only [List.head?_cons] at h1
      rw [← h1, h]
      rfl

theorem charAt_eq {raw : Str} {position : Nat} {c : Char} (h : charAt raw position = .ok c) :
    raw.getD position (Char.ofNat 0) = c := by
  unfold charAt at h
  split at h
  · cases h; rfl
  · cases h

theorem pushMiddle_middle (params : Params) (x : Str) :
    (pushMiddle params x).middle.getD [] = params.middle.getD [] ++ [x] := by
  obtain ⟨middle, trailing⟩ := params
  cases middle <;> simp [pushMiddle]

theorem parseParams_middle (fuel : Nat) (raw : Str) (position : Nat) (params q : Params)
    (hlen : raw.length < npos) (h : parseParams fuel raw position params = .ok q)
    (hp : ∀ m ∈ params.middle.getD [], ' ' ∉ m ∧ m.head? ≠ some ':') :
    ∀ m ∈ q.middle.getD [], ' ' ∉ m ∧ m.head? ≠ some ':' := by
  induction fuel generalizing position params with
  | zero => simp [parseParams] at h
  | succ fuel ih =>
    unfold parseParams at h
    by_cases hpos : position < npos
    · simp only [hpos, if_true] at h
      cases hc : charAt raw position with
      | error e => simp [hc] at h
      | ok c =>
        simp only [hc] at h
        by_cases hcolon : c = ':'
        · simp only [hcolon, if_true] at h
          cases hs : substr raw (position + 1) npos with
          | error e => simp [hs] at h
          | ok t =>
            simp only [hs] at h
            cases h
            exact hp
        · have hgood : ∀ k, ' ' ∉ (raw.drop position).take k →
              ∀ m ∈ (pushMiddle params ((raw.drop position).take k)).middle.getD [],
                ' ' ∉ m ∧ m.head? ≠ some ':' := by
            intro k hk m hm
            rw [pushMiddle_middle] at hm
            simp only [List.mem_append, List.mem_singleton] at hm
            rcases hm with hm | rfl
            · exact hp m hm
            · refine ⟨hk, fun hhead => hcolon ?_⟩
              rw [← charAt_eq hc]
              exact getD_of_head_take raw position k ':' _ hhead
          have hbody : position ≤ raw.length := by
            unfold charAt at hc
            split at hc
            · assumption
            · cases hc
          simp only [hcolon, if_false] at h
          by_cases hns : find raw ' ' position = npos
          · simp only [hns, ne_eq, not_true_eq_false, if_false, substr_ok _ hbody] at h
            cases h
            apply hgood
            have h1 := not_mem_take_findFrom ' ' (raw.drop position) position
            have h2 : findFrom ' ' (raw.drop position) position = npos := hns
            rw [h2] at h1
            have e1 : (raw.drop position).take (npos - position) = raw.drop position :=
              List.take_of_length_le (by simp; omega)
            have e2 : (raw.drop position).take npos = raw.drop position :=
              List.take_of_length_le (by simp; omega)
            rw [e1] at h1
            rw [e2]
            exact h1
          · simp only [ne_eq, hns, not_false_eq_true, if_true, substr_ok _ hbody] at h
            cases hk : skipSpaces (raw.length + 1) raw (find raw ' ' position + 1) with
            | error e => simp [hk] at h
            | ok position' =>
              simp only [hk] at h
              exact ih position' _ h
                (hgood _ (not_mem_take_findFrom ' ' (raw.drop position) position))
    · simp only [hpos, if_false] at h
      cases h
      exact hp

theorem parseCommand_middle {raw : Str} {message m : IRCMessage} {position : Nat}
    (hlen : raw.length < npos) (h : parseCommand raw message position = .ok (some m))
    (hp : ∀ x ∈ message.params.middle.getD [], ' ' ∉ x ∧ x.head? ≠ some ':') :
    ∀ x ∈ m.params.middle.getD [], ' ' ∉ x ∧ x.head? ≠ some ':' := by
  unfold parseCommand at h
  by_cases hns : find raw ' ' position = npos
  · simp only [hns, if_true] at h
    by_cases hpos : position < npos
    · simp only [hpos, if_true] at h
      cases hs : substr raw position npos with
      | error e => simp [hs] at h
      | ok c =>
        simp only [hs] at h
        cases h
        exact hp
    · simp [hpos] at h
  · simp only [hns, if_false] at h
    cases hs : substr raw position (find raw ' ' position - position) with
    | error e => simp [hs] at h
    | ok c =>
      simp only [hs] at h
      cases hk : skipSpaces (raw.length + 1) raw (find raw ' ' position + 1) with
      | error e => simp [hk] at h
      | ok position' =>
        simp only [hk] at h
        cases hq : parseParams (raw.length + 1) raw position' message.params with
        | error e => simp [hq] at h
        | ok q =>
          simp only [hq] at h
          cases h
          exact parseParams_middle _ raw position' message.params q hlen hq hp

theorem parseSource_middle {raw : Str} {message m : IRCMessage} {position : Nat}
    (hlen : raw.length < npos) (h : parseSource raw message position = .ok (some m))
    (hp : ∀ x ∈ message.params.middle.getD [], ' ' ∉ x ∧ x.head? ≠ some ':') :
    ∀ x ∈ m.params.middle.getD [], ' ' ∉ x ∧ x.head? ≠ some ':' := by
  unfold parseSource at h
  cases hc : charAt raw position with
  | error e => simp [hc] at h
  | ok c =>
    simp only [hc] at h
    by_cases hcolon : c = ':'
    · simp only [hcolon, if_true] at h
      by_cases hns : find raw ' ' position = npos
      · simp [hns] at h
      · simp only [hns, if_false] at h
        cases hs : substr raw (position + 1) (find raw ' ' position - (position + 1)) with
        | error e => simp [hs] at h
        | ok p =>
          simp only [hs] at h
          cases hk : skipSpaces (raw.length + 1) raw (find raw ' ' position + 1) with
          | error e => simp [hk] at h
          | ok q =>
            simp only [hk] at h
            exact parseCommand_middle hlen h hp
    · simp only [hcolon, if_false] at h
      exact parseCommand_middle hlen h hp

theorem parseRaw_middle {raw : Str} {m : IRCMessage} (hlen : raw.length < npos)
    (h : parseRaw raw = .ok (some m)) :
    ∀ x ∈ m.params.middle.getD [], ' ' ∉ x ∧ x.head? ≠ some ':' := by
  unfold parseRaw at h
  cases hc : charAt raw 0 with
  | error e => simp [hc] at h
  | ok c =>
    simp only [hc] at h
    by_cases hat : c = '@'
    · simp only [hat, if_true] at h
      by_cases hns : find raw ' ' 0 = npos
      · simp [hns] at h
      · simp only [hns, if_false] at h
        cases hs : substr raw 1 (find raw ' ' 0) with
        | error e => simp [hs] at h
        | ok block =>
          simp only [hs] at h
          cases hsp : splitAtSep block [';'] with
          | error e => simp [hsp] at h
          | ok rawTags =>
            simp only [hsp] at h
            cases ht : parseTags rawTags [] with
            | error e => simp [ht] at h
            | ok tags =>
              simp only [ht] at h
              cases hk : skipSpaces (raw.length + 1) raw (find raw ' ' 0 + 1) with
              | error e => simp [hk] at h
              | ok q =>
                simp only [hk] at h
                exact parseSource_middle hlen h (by simp)
    · simp only [hat, if_false] at h
      cases hk : skipSpaces (raw.length + 1) raw 0 with
      | error e => simp [hk] at h
      | ok q =>
        simp only [hk] at h
        exact parseSource_middle hlen h (by simp)

/-- What holds of the middle parameters: for every line and every message
`parseMessage` returns for it, no middle parameter contains a space and none
starts with `':'`. -/
theorem parseMessage_middle_shape (line : Str) (msg : IRCMessage) (hlen : line.length < npos)
    (h : parseMessage line = .ok (some msg)) :
    ∀ x ∈ msg.params.middle.getD [], ' ' ∉ x ∧ x.head? ≠ some ':' := by
  rw [parseMessage_eq_cut line hlen] at h
  have hcut : (cutAtCR line).length ≤ line.length := length_takeWhile_le _ line
  exact parseRaw_middle (by omega) h

/-! ## Termination -/

theorem findStr_empty_sep (str : Str) (start : Nat) (hs : start ≤ str.length) :
    findStr str [] start = start := by
  simp only [findStr, hs, if_true]
  cases str.drop start with
  | nil => simp [findStrFrom]
  | cons x xs => simp [findStrFrom, startsWith]

theorem splitAtSepLoop_empty_sep (str : Str) (hlen : str.length < npos) (fuel start : Nat)
    (out : List Str) (hs : start ≤ str.length) :
    splitAtSepLoop fuel str [] start (findStr str [] start) out = .error .outOfFuel := by
  induction fuel generalizing out with
  | zero => rfl
  | succ fuel ih =>
    have hne : start ≠ npos := by omega
    have h := ih (out ++ [(str.drop start).take (start - start)])
    rw [findStr_empty_sep str start hs] at h ⊢
    simp only [splitAtSepLoop, ne_eq, hne, not_false_eq_true, if_true, substr_ok _ hs,
      List.length_nil, Nat.add_zero]
    rw [findStr_empty_sep str start hs]
    exact h

theorem splitAtSepFuel_empty_sep (str : Str) (hlen : str.length < npos) (fuel : Nat) :
    splitAtSepFuel fuel str [] = .error .outOfFuel := by
  simp only [splitAtSepFuel, splitAtSepLoop_empty_sep str hlen fuel 0 [] (Nat.zero_le _)]

theorem splitBatch_ok (irc : Irc) (batch : Str) : ∃ irc', splitBatch irc batch = .ok irc' := by
  obtain ⟨rawMessages, h1, _⟩ := splitAtSep_ok batch ['\r', '\n'] (by simp)
  simp only [splitBatch, h1, splitBatchLoop_eq]
  exact ⟨_, rfl⟩

/-- C19 as stated fails: with the empty separator the loop of `splitAtSep`
finds the separator at `start` again and again without advancing; on the text
`"abc"` no amount of fuel lets it return. -/
theorem splitAtSep_empty_separator_loops :
    ¬ ∃ fuel out, splitAtSepFuel fuel "abc".toList [] = .ok out := by
  rintro ⟨fuel, out, h⟩
  rw [splitAtSepFuel_empty_sep "abc".toList (by decide) fuel] at h
  cases h

/-- C19, amended: for every text and every non-empty separator `splitAtSep`
returns a list, its loop taking at most one round per character of the text
and one more; `parseMessage` and `splitBatch`, which only split at `";"`,
`"="` and CRLF, return on every input. -/
theorem splitAtSep_terminates (text sep : Str) (hsep : sep ≠ []) (msg : Str) (irc : Irc)
    (batch : Str) :
    (∃ out, splitAtSepFuel (text.length + 1) text sep = .ok out) ∧
    (∃ r, parseMessage msg = .ok r) ∧
    (∃ irc', splitBatch irc batch = .ok irc') := by
  obtain ⟨out, h, _⟩ := splitAtSep_ok text sep hsep
  exact ⟨⟨out, h⟩, parseMessage_ok msg, splitBatch_ok irc batch⟩

/-- C19 amended, at the text `"a;b"` with the separator `";"`, the line
`"@a;b=c PING :x"` and the batch `"PING :x\r\nPING"`. -/
theorem splitAtSep_terminates_witness :
    (∃ out, splitAtSepFuel ("a;b".toList.length + 1) "a;b".toList [';'] = .ok out) ∧
    (∃ r, parseMessage "@a;b=c PING :x".toList = .ok r) ∧
    (∃ irc', splitBatch { sent := [], delivered := [] } "PING :x\r\nPING".toList = .ok irc') :=
  splitAtSep_terminates "a;b".toList [';'] (by decide) "@a;b=c PING :x".toList
    { sent := [], delivered := [] } "PING :x\r\nPING".toList

end Ircpp
